import Mathlib

/-!
# transcodingman: the HTTP transcoding handler and its helpers

A shallow embedding of `transcodingman.go`.  Go strings are byte sequences, so a
string is a list of byte values; the operating system, the clock, the archive
reader and the two external programs are oracles collected in `Env`; a Go
run-time panic is an explicit outcome.
-/

set_option linter.dupNamespace false
set_option linter.unusedVariables false

namespace Transcodingman

/-! ## Go strings and run-time panics -/

/-- A Go string: its bytes, in order. -/
abbrev GoString := List Nat

/-- The bytes of an ASCII string literal of the source. -/
def lit (s : String) : GoString := s.toList.map Char.toNat

/-- Outcome of evaluating Go code that may abort with a run-time panic. -/
inductive Go (α : Type) where
  | ret (a : α)
  | panic
  deriving DecidableEq, Repr

/-- Sequencing of Go code: a panic aborts everything after it. -/
def Go.bind {α β : Type} (x : Go α) (f : α → Go β) : Go β :=
  match x with
  | .ret a => f a
  | .panic => .panic

instance : Monad Go where
  pure := Go.ret
  bind := Go.bind

/-- The slice expression `s[lo:hi]`; Go panics unless `0 ≤ lo ≤ hi ≤ len(s)`. -/
def slice (s : GoString) (lo hi : Int) : Go GoString :=
  if 0 ≤ lo ∧ lo ≤ hi ∧ hi ≤ (s.length : Int) then
    .ret ((s.take hi.toNat).drop lo.toNat)
  else .panic

/-- Search for `substr` at the offsets `k, k-1, ..., 0` of `s`, highest first. -/
def lastIndexFrom (s substr : GoString) : Nat → Int
  | 0 => if substr.isPrefixOf s then 0 else -1
  | k + 1 =>
    if substr.isPrefixOf (s.drop (k + 1)) then ((k + 1 : Nat) : Int)
    else lastIndexFrom s substr k

/-- The library function `strings.LastIndex`: the offset of the last occurrence of
`substr` in `s`, or `-1` when there is none. -/
def lastIndex (s substr : GoString) : Int :=
  if s.length < substr.length then -1
  else lastIndexFrom s substr (s.length - substr.length)

/-! ## Data model -/

/-- The parsed source path (`Extension` in the source). -/
structure Extension where
  FullPath : GoString
  Path : GoString
  Extension : GoString
  Name : GoString
  deriving DecidableEq, Repr

/-- The payload of an error answer (`Err` in the source). -/
structure Err where
  Code : GoString
  Step : GoString
  Message : GoString
  deriving DecidableEq, Repr

def incomingPath : GoString := lit "incoming/"

def outgoingPath : GoString := lit "outgoing/"

/-! ## getExtension -/

/-- The function `getExtension`.  `notExist p` is the answer of
`os.IsNotExist(err)` after `os.Stat(p)`.  The result is the Go pair
`(Extension, error)`, the error being `none` for `nil`. -/
def getExtension (notExist : GoString → Bool) (input : GoString) :
    Go (Extension × Option GoString) :=
  let result : Extension :=
    { FullPath := incomingPath ++ input, Path := [], Extension := [], Name := [] }
  if notExist result.FullPath then
    .ret (result, some (input ++ lit " is not exist."))
  else if lastIndex result.FullPath (lit ".") < 2 then
    .ret (result, some (input ++ lit " has not extension."))
  else do
    let path ← slice input 0 (lastIndex input (lit "/") + 1)
    let ext ← slice input (lastIndex input (lit ".") + 1) input.length
    let name ← slice input (lastIndex input (lit "/") + 1) (lastIndex input (lit "."))
    pure ({ result with Path := path, Extension := ext, Name := name }, none)

/-! ## Library functions on strings -/

/-- Worker of `replaceAll`: `skip` counts the bytes of a matched `old` that are
still to be dropped. -/
def replaceFrom (old new : GoString) : GoString → Nat → GoString
  | [], _ => []
  | _ :: rest, skip + 1 => replaceFrom old new rest skip
  | b :: rest, 0 =>
    if old.isPrefixOf (b :: rest) then new ++ replaceFrom old new rest (old.length - 1)
    else b :: replaceFrom old new rest 0

/-- The library call `strings.Replace(s, old, new, -1)` for a non-empty `old`: every
non-overlapping occurrence of `old`, found left to right, is replaced by `new`. -/
def replaceAll (s old new : GoString) : GoString := replaceFrom old new s 0

def runeError : Nat := 0xFFFD

/-- The table `first` of `unicode/utf8`: for a leading byte of a multi-byte
sequence, the length of the sequence and the range accepted for its second byte. -/
def firstByte (b : Nat) : Option (Nat × Nat × Nat) :=
  if 0xC2 ≤ b ∧ b ≤ 0xDF then some (2, 0x80, 0xBF)
  else if b = 0xE0 then some (3, 0xA0, 0xBF)
  else if (0xE1 ≤ b ∧ b ≤ 0xEC) ∨ b = 0xEE ∨ b = 0xEF then some (3, 0x80, 0xBF)
  else if b = 0xED then some (3, 0x80, 0x9F)
  else if b = 0xF0 then some (4, 0x90, 0xBF)
  else if 0xF1 ≤ b ∧ b ≤ 0xF3 then some (4, 0x80, 0xBF)
  else if b = 0xF4 then some (4, 0x80, 0x8F)
  else none

/-- Whether a byte is present and lies in `lo..hi`. -/
def inRange (b : Option Nat) (lo hi : Nat) : Bool :=
  match b with
  | some x => decide (lo ≤ x ∧ x ≤ hi)
  | none => false

/-- The library function `utf8.DecodeRuneInString`: the first rune of `s` and its
width in bytes; an invalid or truncated sequence yields `(runeError, 1)`. -/
def decodeRune (s : GoString) : Nat × Nat :=
  match s with
  | [] => (runeError, 0)
  | s0 :: rest =>
    if s0 < 0x80 then (s0, 1)
    else
      match firstByte s0 with
      | none => (runeError, 1)
      | some (sz, lo, hi) =>
        if !inRange rest[0]? lo hi then (runeError, 1)
        else if sz ≤ 2 then (s0 % 32 * 64 + rest[0]?.getD 0 % 64, 2)
        else if !inRange rest[1]? 0x80 0xBF then (runeError, 1)
        else if sz ≤ 3 then
          (s0 % 16 * 4096 + rest[0]?.getD 0 % 64 * 64 + rest[1]?.getD 0 % 64, 3)
        else if !inRange rest[2]? 0x80 0xBF then (runeError, 1)
        else
          (s0 % 8 * 262144 + rest[0]?.getD 0 % 64 * 4096 + rest[1]?.getD 0 % 64 * 64
            + rest[2]?.getD 0 % 64, 4)

/-- The library function `unicode.IsSpace`. -/
def isSpace (r : Nat) : Bool :=
  if r ≤ 0xFF then
    decide (r = 9 ∨ r = 10 ∨ r = 11 ∨ r = 12 ∨ r = 13 ∨ r = 32 ∨ r = 0x85 ∨ r = 0xA0)
  else
    decide (r = 0x1680 ∨ (0x2000 ≤ r ∧ r ≤ 0x200A) ∨ r = 0x2028 ∨ r = 0x2029 ∨ r = 0x202F
      ∨ r = 0x205F ∨ r = 0x3000)

/-- The runes of a string with the bytes each one occupies, as a `for range` loop
over the string visits them; `fuel` bounds the number of runes. -/
def runesFuel : Nat → GoString → List (Nat × GoString)
  | 0, _ => []
  | fuel + 1, s =>
    match s with
    | [] => []
    | _ :: _ =>
      ((decodeRune s).1, s.take (decodeRune s).2) :: runesFuel fuel (s.drop (decodeRune s).2)

def runes (s : GoString) : List (Nat × GoString) := runesFuel s.length s

/-- The field collected so far, if there is one. -/
def flush (cur : GoString) : List GoString := if cur = [] then [] else [cur]

/-- The loop of `strings.FieldsFunc`: runes satisfying `f` separate the fields. -/
def splitRunes (f : Nat → Bool) : List (Nat × GoString) → GoString → List GoString
  | [], cur => flush cur
  | (r, bs) :: ts, cur =>
    if f r then flush cur ++ splitRunes f ts [] else splitRunes f ts (cur ++ bs)

/-- The library function `strings.Fields`: the maximal runs of non-space runes. -/
def fields (s : GoString) : List GoString := splitRunes isSpace (runes s) []

/-- A string none of whose runes is white space. -/
def noSpace (s : GoString) : Prop := ∀ t ∈ runes s, isSpace t.1 = false

instance (s : GoString) : Decidable (noSpace s) := by unfold noSpace; infer_instance

/-! ## Library functions on paths -/

/-- The components of a path, separated by `/`. -/
def splitSlash : GoString → List GoString
  | [] => [[]]
  | b :: rest =>
    if b = '/'.toNat then [] :: splitSlash rest
    else
      match splitSlash rest with
      | seg :: segs => (b :: seg) :: segs
      | [] => [[b]]

def isRooted (path : GoString) : Bool := path.head? = some '/'.toNat

/-- One step of `filepath.Clean`: the cleaned components so far, extended by the next
component of the path. -/
def cleanPush (rooted : Bool) (stack : List GoString) (seg : GoString) : List GoString :=
  if seg = [] ∨ seg = lit "." then stack
  else if seg = lit ".." then
    match stack.getLast? with
    | none => if rooted then [] else [lit ".."]
    | some top => if top = lit ".." then stack ++ [lit ".."] else stack.dropLast
  else stack ++ [seg]

def cleanStack (path : GoString) : List GoString :=
  (splitSlash path).foldl (cleanPush (isRooted path)) []

/-- The library call `strings.Join(segs, "/")`. -/
def joinSlash : List GoString → GoString
  | [] => []
  | [seg] => seg
  | seg :: rest => seg ++ '/'.toNat :: joinSlash rest

/-- A cleaned path written out from its components. -/
def render (rooted : Bool) (stack : List GoString) : GoString :=
  if rooted then '/'.toNat :: joinSlash stack
  else if stack = [] then lit "."
  else joinSlash stack

/-- The library function `filepath.Clean` (Unix). -/
def clean (path : GoString) : GoString := render (isRooted path) (cleanStack path)

/-- The library call `filepath.Join(dest, name)` (Unix): empty elements are ignored. -/
def join (dest name : GoString) : GoString :=
  if dest ≠ [] then clean (dest ++ '/'.toNat :: name)
  else if name ≠ [] then clean name
  else []

/-- The library function `filepath.Dir` (Unix). -/
def dir (path : GoString) : GoString :=
  clean (path.take (lastIndex path (lit "/") + 1).toNat)

/-- A path component that names an entry: not empty, not `.`, not `..`, without `/`. -/
def properSeg (seg : GoString) : Prop :=
  seg ≠ [] ∧ seg ≠ lit "." ∧ seg ≠ lit ".." ∧ '/'.toNat ∉ seg

/-- The shape of a cleaned stack of components: first `..` components (none under a
rooted path), then components that name entries. -/
def cleanShape (rooted : Bool) (st : List GoString) : Prop :=
  ∃ k body, st = List.replicate k (lit "..") ++ body ∧ (rooted = true → k = 0)
    ∧ ∀ seg ∈ body, properSeg seg

/-- The path lies inside the directory `dest`: cleaned, it is the cleaned `dest`
followed by components that name entries. -/
def inside (dest path : GoString) : Prop :=
  ∃ extra : List GoString, (∀ seg ∈ extra, properSeg seg)
    ∧ clean path = render (isRooted dest) (cleanStack dest ++ extra)

/-! ## Effects and the environment -/

/-- A value produced by `json.Unmarshal` into `interface{}`; a number keeps its text. -/
inductive JSON where
  | null
  | bool (b : Bool)
  | number (text : GoString)
  | string (s : GoString)
  | array (items : List JSON)
  | object (members : List (GoString × JSON))

/-- The body of a successful answer (`Response` in the source). -/
structure Response where
  Message : GoString
  Source : GoString
  URL : GoString
  Detail : JSON

/-- The value built by `echo.NewHTTPError(code, message)`. -/
structure HTTPError where
  Code : Nat
  Message : Err
  deriving DecidableEq, Repr

/-- What the handler hands back to the framework: the response written by
`c.JSON(status, body)`, a returned `error` value (`none` for `nil`), or a panic. -/
inductive Answer where
  | json (status : Nat) (body : Response)
  | error (e : Option HTTPError)
  | panic

/-- A call that acts on the world outside the process, with its arguments. -/
inductive Effect where
  | mkdirAll (path : GoString)
  | openFile (path : GoString)
  | removeAll (path : GoString)
  | exec (name : GoString) (args : List GoString)
  | logError (e : Err)
  deriving DecidableEq, Repr

/-- One file of an opened archive (`zip.File`), with the outcome of each operation
`unzip` performs on it. -/
structure ZipEntry where
  Name : GoString
  isDir : Bool
  openErr : Option GoString
  createErr : Option GoString
  copyErr : Option GoString
  rcCloseFails : Bool
  fCloseFails : Bool

/-- An opened archive (`zip.ReadCloser`). -/
structure Archive where
  File : List ZipEntry
  closeFails : Bool

/-- The outcome of `cmd.Run()`: the returned error and what the process wrote. -/
structure ProcResult where
  err : Option GoString
  stdout : GoString
  stderr : GoString

/-- Everything the handler obtains from outside the program. -/
structure Env where
  /-- The path found by `exec.LookPath("ffmpeg")`. -/
  ffmpeg : GoString
  /-- The path found by `exec.LookPath("ffprobe")`. -/
  ffprobe : GoString
  /-- The answer of `os.IsNotExist(err)` after `os.Stat(path)` in `getExtension`. -/
  notExist : GoString → Bool
  /-- The call `zip.OpenReader(src)`. -/
  openReader : GoString → Except GoString Archive
  /-- The value of `time.Now().Format("20060102")` when the output directory is named. -/
  date : GoString
  /-- The value of `time.Now().Format("20060102150405")` when the output file is named. -/
  stamp : GoString
  /-- The answer of `os.IsNotExist(err)` after `os.Stat(outPath)`. -/
  outMissing : GoString → Bool
  /-- Running the command `name args...` to completion. -/
  run : GoString → List GoString → ProcResult
  /-- The map filled by `json.Unmarshal`; it stays empty when decoding fails. -/
  unmarshal : GoString → List (GoString × JSON)
  /-- The error of `os.RemoveAll(path)` after a successful run. -/
  removeAllErr : GoString → Option GoString

/-! ## unzip -/

/-- The closure `extractAndWriteFile` of `unzip`: the calls it makes and the error it
returns; a failing deferred `Close` panics. -/
def extractAndWriteFile (dest : GoString) (f : ZipEntry) : List Effect × Go (Option GoString) :=
  match f.openErr with
  | some e => ([], .ret (some e))
  | none =>
    let path := join dest f.Name
    if f.isDir then
      ([.mkdirAll path], if f.rcCloseFails then .panic else .ret none)
    else
      match f.createErr with
      | some e =>
        ([.mkdirAll (dir path), .openFile path],
          if f.rcCloseFails then .panic else .ret (some e))
      | none =>
        ([.mkdirAll (dir path), .openFile path],
          if f.fCloseFails ∨ f.rcCloseFails then .panic else .ret f.copyErr)

/-- The loop `for _, f := range r.File` of `unzip`: it stops at the first error. -/
def extractAll (dest : GoString) : List ZipEntry → List Effect × Go (Option GoString)
  | [] => ([], .ret none)
  | f :: fs =>
    match extractAndWriteFile dest f with
    | (tr, .ret none) => (tr ++ (extractAll dest fs).1, (extractAll dest fs).2)
    | (tr, r) => (tr, r)

/-- The function `unzip`. -/
def unzip (openReader : GoString → Except GoString Archive) (src dest : GoString) :
    List Effect × Go (Option GoString) :=
  match openReader src with
  | .error e => ([], .ret (some e))
  | .ok r =>
    (.mkdirAll dest :: (extractAll dest r.File).1,
      if r.closeFails then .panic else (extractAll dest r.File).2)

/-! ## The handler -/

/-- The function `clearFile`. -/
def clearFile (info : Extension) : List Effect × Go Unit :=
  match slice info.FullPath 0 (lastIndex info.FullPath (lit ".zip")) with
  | .panic => ([.removeAll info.FullPath], .panic)
  | .ret d => ([.removeAll info.FullPath, .removeAll d], .ret ())

/-- The function `printError`; `c` tells whether the context argument is non-nil. -/
def printError (code step message : GoString) (c : Bool) : List Effect × Option HTTPError :=
  ([.logError ⟨code, step, message⟩],
    if c then some ⟨500, ⟨code, step, message⟩⟩ else none)

/-- The expression `detail["streams"].([]interface{})[0]`. -/
def firstStream (detail : List (GoString × JSON)) : Go JSON :=
  match detail.lookup (lit "streams") with
  | some (.array (x :: _)) => .ret x
  | _ => .panic

/-- The handler up to the choice of the transcoder's input: either that input, or the
answer of an early return. -/
def inputStage (env : Env) (source : GoString) (finfo : Extension) :
    List Effect × (GoString ⊕ Answer) :=
  if finfo.Extension = lit "zip" then
    match slice finfo.FullPath 0 (lastIndex finfo.FullPath (lit ".zip")) with
    | .panic => ([], .inr .panic)
    | .ret unzipPath =>
      match unzip env.openReader finfo.FullPath unzipPath with
      | (tr, .panic) => (tr, .inr .panic)
      | (tr, .ret (some err)) =>
        match clearFile finfo with
        | (tr2, .panic) => (tr ++ tr2, .inr .panic)
        | (tr2, .ret _) =>
          (tr ++ tr2 ++ (printError (lit "002") (lit "unzip") err true).1,
            .inr (.error (printError (lit "002") (lit "unzip") err true).2))
      | (tr, .ret none) => (tr, .inl (unzipPath ++ lit "/%d.jpg"))
  else ([], .inl source)

/-- The option string the handler uses. -/
def effectiveOptions (options : GoString) : GoString :=
  if options.length < 2 then lit "-s 160x64 -c:v mjpeg -q:v 5 -r 20 -an" else options

def outPath (env : Env) : GoString := outgoingPath ++ env.date

def cmdOutput (env : Env) (finfo : Extension) : GoString :=
  outPath env ++ lit "/" ++ env.stamp ++ lit "_" ++ finfo.Name ++ lit ".avi"

def cmdOption (cmdInput options output : GoString) : GoString :=
  lit "-i " ++ cmdInput ++ lit " " ++ options ++ lit " -v 16 " ++ output

/-- The arguments the transcoder is started with. -/
def ffmpegArgs (env : Env) (options : GoString) (finfo : Extension) (cmdInput : GoString) :
    List GoString :=
  fields (cmdOption cmdInput (effectiveOptions options) (cmdOutput env finfo))

/-- The arguments the prober is started with. -/
def ffprobeArgs (env : Env) (finfo : Extension) : List GoString :=
  [lit "-show_streams", lit "-of", lit "json", cmdOutput env finfo]

/-- The end of the handler after both programs succeeded: the answer is built and, for
an archive, the extracted frames are removed and the archive is moved away. -/
def finishStage (env : Env) (source : GoString) (finfo : Extension) (out : GoString) :
    List Effect × Answer :=
  match slice (cmdOutput env finfo) outgoingPath.length (cmdOutput env finfo).length with
  | .panic => ([], .panic)
  | .ret url =>
    match firstStream (env.unmarshal out) with
    | .panic => ([], .panic)
    | .ret d =>
      let result : Response :=
        { Message := lit "complete", URL := url, Source := source, Detail := d }
      if finfo.Extension = lit "zip" then
        match slice finfo.FullPath 0 (lastIndex finfo.FullPath (lit ".zip")) with
        | .panic => ([], .panic)
        | .ret unzipPath =>
          let mvArgs := [finfo.FullPath, cmdOutput env finfo ++ lit ".origin.zip"]
          ([.removeAll unzipPath]
            ++ (match env.removeAllErr unzipPath with
                | some e => (printError (lit "005") (lit "origin file remove") e false).1
                | none => [])
            ++ [.exec (lit "mv") mvArgs]
            ++ (match (env.run (lit "mv") mvArgs).err with
                | some e => (printError (lit "006") (lit "origin file rename") e false).1
                | none => []),
            .json 200 result)
      else ([], .json 200 result)

/-- The handler from the choice of options on, given the transcoder's input. -/
def encodeStage (env : Env) (source options : GoString) (finfo : Extension)
    (cmdInput : GoString) : List Effect × Answer :=
  let tr0 : List Effect :=
    (if env.outMissing (outPath env) then [.mkdirAll (outPath env)] else [])
      ++ [.exec env.ffmpeg (ffmpegArgs env options finfo cmdInput)]
  let r := env.run env.ffmpeg (ffmpegArgs env options finfo cmdInput)
  match r.err with
  | some _ =>
    match clearFile finfo with
    | (tr, .panic) => (tr0 ++ tr, .panic)
    | (tr, .ret _) =>
      (tr0 ++ tr
          ++ (printError (lit "003") (lit "ffmpeg") (replaceAll r.stderr incomingPath []) true).1,
        .error (printError (lit "003") (lit "ffmpeg")
          (replaceAll r.stderr incomingPath []) true).2)
  | none =>
    let p := env.run env.ffprobe (ffprobeArgs env finfo)
    let tr1 : List Effect := tr0 ++ [.exec env.ffprobe (ffprobeArgs env finfo)]
    let errOut := r.stderr ++ p.stderr
    match p.err with
    | some _ =>
      match clearFile finfo with
      | (tr, .panic) => (tr1 ++ tr, .panic)
      | (tr, .ret _) =>
        (tr1 ++ tr
            ++ (printError (lit "004") (lit "ffprobe") (replaceAll errOut incomingPath []) true).1,
          .error (printError (lit "004") (lit "ffprobe")
            (replaceAll errOut incomingPath []) true).2)
    | none => (tr1 ++ (finishStage env source finfo p.stdout).1,
        (finishStage env source finfo p.stdout).2)

/-- The handler `transcoding` on a request with the query parameters `source` and
`options`: the calls it makes on the outside world, in order, and its answer. -/
def transcoding (env : Env) (source options : GoString) : List Effect × Answer :=
  match getExtension env.notExist source with
  | .panic => ([], .panic)
  | .ret (_, some err) =>
    ((printError (lit "001") (lit "get extension") err true).1,
      .error (printError (lit "001") (lit "get extension") err true).2)
  | .ret (finfo, none) =>
    match inputStage env source finfo with
    | (tr, .inr answer) => (tr, answer)
    | (tr, .inl cmdInput) =>
      (tr ++ (encodeStage env source options finfo cmdInput).1,
        (encodeStage env source options finfo cmdInput).2)


/-! ## The outcome of os.Stat -/

/-- The outcome of the library call `os.Stat(path)`. -/
inductive StatResult where
  /-- The error is nil: a file exists at the path. -/
  | found
  /-- The error ENOENT: a component of the path does not exist. -/
  | notExist
  /-- The error ENOTDIR: a component before the last one is not a directory, so nothing
  exists at the path. -/
  | notDir
  /-- Any other error, such as a denied search permission. -/
  | other
  deriving DecidableEq, Repr

/-- The library function `os.IsNotExist` on the error of `os.Stat`: true for ENOENT
only. -/
def isNotExist : StatResult → Bool
  | .notExist => true
  | _ => false

/-- The call `os.Stat` established that no file exists at the path. -/
def noFileAt : StatResult → Bool
  | .notExist => true
  | .notDir => true
  | _ => false

/-! ## Sample data -/

/-- The answers of `os.Stat` in a file system that holds the directory `incoming` and in
it the regular file `a.mp4`, and nothing else. -/
def sampleStat (path : GoString) : StatResult :=
  if path = lit "incoming" ∨ path = lit "incoming/" ∨ path = lit "incoming/a.mp4" then .found
  else if (lit "incoming/a.mp4/").isPrefixOf path then .notDir
  else .notExist

/-- An archive of two frames, every operation on which succeeds. -/
def sampleArchive : Archive :=
  { File := [⟨lit "1.jpg", false, none, none, none, false, false⟩,
             ⟨lit "2.jpg", false, none, none, none, false, false⟩],
    closeFails := false }

/-- An archive whose only file is named `../../x.jpg`. -/
def slipArchive : Archive :=
  { File := [⟨lit "../../x.jpg", false, none, none, none, false, false⟩],
    closeFails := false }

/-- An archive with a file whose name starts with `/` and a directory. -/
def rootedArchive : Archive :=
  { File := [⟨lit "/etc/passwd", false, none, none, none, false, false⟩,
             ⟨lit "frames/", true, none, none, none, false, false⟩],
    closeFails := false }

/-- An environment in which every file exists, every archive is `sampleArchive`, and
the transcoder and the prober end as given. -/
def sampleEnv (transcoder prober : ProcResult) : Env where
  ffmpeg := lit "/usr/bin/ffmpeg"
  ffprobe := lit "/usr/bin/ffprobe"
  notExist := fun _ => false
  openReader := fun _ => .ok sampleArchive
  date := lit "20240131"
  stamp := lit "20240131235959"
  outMissing := fun _ => true
  run := fun name _ =>
    if name = lit "/usr/bin/ffmpeg" then transcoder
    else if name = lit "/usr/bin/ffprobe" then prober
    else ⟨none, [], []⟩
  unmarshal := fun _ => [(lit "streams", .array [.string (lit "mjpeg"), .null])]
  removeAllErr := fun _ => none

/-- A run that ends without error and writes nothing. -/
def quietRun : ProcResult := ⟨none, [], []⟩

/-- A run that fails after writing `text` to its standard error. -/
def failedRun (text : GoString) : ProcResult := ⟨some (lit "exit status 1"), [], text⟩

/-! ## Facts about the string functions -/

theorem ret_bind {α β : Type} (a : α) (f : α → Go β) : (Go.ret a >>= f) = f a := rfl

theorem pure_eq_ret {α : Type} (a : α) : (pure a : Go α) = Go.ret a := rfl

theorem lit_dot : lit "." = ['.'.toNat] := by decide

theorem lit_slash : lit "/" = ['/'.toNat] := by decide

theorem lastIndexFrom_found (s substr : GoString) (r : Nat) :
    ∀ k, r ≤ k → substr.isPrefixOf (s.drop r) = true →
      (∀ j, r < j → j ≤ k → substr.isPrefixOf (s.drop j) = false) →
      lastIndexFrom s substr k = (r : Int) := by
  intro k
  induction k with
  | zero =>
    intro hr hp _
    have hr0 : r = 0 := by omega
    subst hr0
    simp only [List.drop_zero] at hp
    simp [lastIndexFrom, hp]
  | succ k ih =>
    intro hr hp hno
    by_cases hrk : r = k + 1
    · subst hrk
      simp [lastIndexFrom, hp]
    · have hk : substr.isPrefixOf (s.drop (k + 1)) = false := hno (k + 1) (by omega) le_rfl
      simp only [lastIndexFrom, hk]
      exact ih (by omega) hp (fun j h1 h2 => hno j h1 (by omega))

theorem lastIndexFrom_absent (s substr : GoString) :
    ∀ k, (∀ j, j ≤ k → substr.isPrefixOf (s.drop j) = false) →
      lastIndexFrom s substr k = -1 := by
  intro k
  induction k with
  | zero =>
    intro hno
    have h0 := hno 0 le_rfl
    simp only [List.drop_zero] at h0
    simp [lastIndexFrom, h0]
  | succ k ih =>
    intro hno
    have hk := hno (k + 1) le_rfl
    simp only [lastIndexFrom, hk]
    exact ih (fun j hj => hno j (by omega))

theorem byte_isPrefixOf_drop (c : Nat) (s : GoString) (j : Nat)
    (h : [c].isPrefixOf (s.drop j) = true) : c ∈ s.drop j := by
  cases hd : s.drop j with
  | nil => rw [hd] at h; simp [List.isPrefixOf] at h
  | cons x t =>
    rw [hd] at h
    simp [List.isPrefixOf] at h
    simp [h]

/-- The last index of a byte that does not occur is `-1`. -/
theorem lastIndex_byte_absent (c : Nat) (s : GoString) (h : c ∉ s) :
    lastIndex s [c] = -1 := by
  unfold lastIndex
  split
  · rfl
  · apply lastIndexFrom_absent
    intro j _
    by_contra hp
    have hp1 : [c].isPrefixOf (s.drop j) = true := by simpa using hp
    exact h (List.mem_of_mem_drop (byte_isPrefixOf_drop c s j hp1))

/-- The last index of a byte is the length of what precedes its last occurrence. -/
theorem lastIndex_byte_last (c : Nat) (pre post : GoString) (h : c ∉ post) :
    lastIndex (pre ++ c :: post) [c] = (pre.length : Int) := by
  unfold lastIndex
  have hlen : ¬ (pre ++ c :: post).length < [c].length := by simp
  rw [if_neg hlen]
  apply lastIndexFrom_found
  · simp
  · simp [List.isPrefixOf]
  · intro j hj _
    by_contra hp
    have hp1 : [c].isPrefixOf ((pre ++ c :: post).drop j) = true := by simpa using hp
    have hmem := byte_isPrefixOf_drop c _ j hp1
    have hd : (pre ++ c :: post).drop j = post.drop (j - pre.length - 1) := by
      rw [List.drop_append_eq_append_drop]
      have h1 : pre.drop j = [] := List.drop_eq_nil_of_le (by omega)
      have h2 : j - pre.length = (j - pre.length - 1) + 1 := by omega
      rw [h1, h2]
      simp
    rw [hd] at hmem
    exact h (List.mem_of_mem_drop hmem)

/-- The last index of a string in a string that ends with it. -/
theorem lastIndex_suffix (pre substr : GoString) :
    lastIndex (pre ++ substr) substr = (pre.length : Int) := by
  unfold lastIndex
  have hlen : ¬ (pre ++ substr).length < substr.length := by simp
  rw [if_neg hlen]
  apply lastIndexFrom_found
  · simp
  · simp
  · intro j h1 h2
    simp at h2
    omega

theorem exists_last_occurrence (c : Nat) (s : GoString) (h : c ∈ s) :
    ∃ pre post, s = pre ++ c :: post ∧ c ∉ post := by
  induction s with
  | nil => simp at h
  | cons x t ih =>
    by_cases ht : c ∈ t
    · obtain ⟨pre, post, hs, hp⟩ := ih ht
      exact ⟨x :: pre, post, by simp [hs], hp⟩
    · have hx : c = x := by
        rcases List.mem_cons.mp h with h1 | h1
        · exact h1
        · exact absurd h1 ht
      exact ⟨[], t, by simp [hx], ht⟩

theorem slice_mid (a b c : GoString) :
    slice (a ++ (b ++ c)) (a.length : Int) ((a.length + b.length : Nat) : Int) = .ret b := by
  unfold slice
  have h : (0 : Int) ≤ (a.length : Int) ∧ (a.length : Int) ≤ ((a.length + b.length : Nat) : Int)
      ∧ ((a.length + b.length : Nat) : Int) ≤ ((a ++ (b ++ c)).length : Int) := by
    refine ⟨by omega, by omega, ?_⟩
    simp only [List.length_append]
    omega
  rw [if_pos h, Int.toNat_ofNat, Int.toNat_ofNat, List.take_append, List.take_left,
    List.drop_left]


theorem slice_parts (s a b c : GoString) (lo hi : Int) (hs : s = a ++ (b ++ c))
    (hlo : lo = (a.length : Int)) (hhi : hi = (a.length : Int) + (b.length : Int)) :
    slice s lo hi = .ret b := by
  subst hs hlo hhi
  have h := slice_mid a b c
  rw [Nat.cast_add] at h
  exact h


/-! ## getExtension -/

theorem dot_not_mem_incomingPath : '.'.toNat ∉ incomingPath := by decide

theorem lastIndex_fullPath_dot (input : GoString) :
    lastIndex (incomingPath ++ input) (lit ".") < 2 ↔ '.'.toNat ∉ input := by
  rw [lit_dot]
  constructor
  · intro hlt hmem
    obtain ⟨pre, post, hs, hp⟩ := exists_last_occurrence _ _ hmem
    have h := lastIndex_byte_last '.'.toNat (incomingPath ++ pre) post hp
    rw [List.append_assoc, ← hs] at h
    rw [h] at hlt
    have h9 : incomingPath.length = 9 := by decide
    simp only [List.length_append, h9] at hlt
    omega
  · intro hno
    have h : '.'.toNat ∉ incomingPath ++ input := by
      intro hm
      rcases List.mem_append.mp hm with h1 | h1
      · exact dot_not_mem_incomingPath h1
      · exact hno h1
    rw [lastIndex_byte_absent _ _ h]
    decide

/-- Past both checks `getExtension` either panics or returns without an error. -/
theorem getExtension_past_checks (notExist : GoString → Bool) (input : GoString)
    (h1 : notExist (incomingPath ++ input) = false)
    (h2 : ¬ lastIndex (incomingPath ++ input) (lit ".") < 2) :
    getExtension notExist input = .panic ∨ ∃ e, getExtension notExist input = .ret (e, none) := by
  unfold getExtension
  simp only [h1, h2, if_false, Bool.false_eq_true]
  cases slice input 0 (lastIndex input (lit "/") + 1) with
  | panic => left; rfl
  | ret path =>
    cases slice input (lastIndex input (lit ".") + 1) input.length with
    | panic => left; rfl
    | ret ext =>
      cases slice input (lastIndex input (lit "/") + 1) (lastIndex input (lit ".")) with
      | panic => left; rfl
      | ret name => right; exact ⟨_, rfl⟩

/-- The two checks of `getExtension` in terms of the answer of `os.IsNotExist`. -/
theorem getExtension_checks (notExist : GoString → Bool) (input : GoString) :
    ((∃ e, getExtension notExist input = .ret (e, some (input ++ lit " is not exist.")))
        ↔ notExist (incomingPath ++ input) = true)
    ∧ ((∃ e, getExtension notExist input = .ret (e, some (input ++ lit " has not extension.")))
        ↔ (notExist (incomingPath ++ input) = false ∧ '.'.toNat ∉ input))
    ∧ (lastIndex (incomingPath ++ input) (lit ".") < 2 ↔ '.'.toNat ∉ input) := by
  have hmsg : input ++ lit " has not extension." ≠ input ++ lit " is not exist." := by
    intro h
    exact absurd (List.append_cancel_left h) (by decide)
  refine ⟨?_, ?_, lastIndex_fullPath_dot input⟩
  · constructor
    · rintro ⟨e, he⟩
      by_contra hne
      have h1 : notExist (incomingPath ++ input) = false := by simpa using hne
      by_cases h2 : lastIndex (incomingPath ++ input) (lit ".") < 2
      · unfold getExtension at he
        simp only [h1, h2, if_true, if_false, Bool.false_eq_true] at he
        injection he with he
        injection he with _ he
        injection he with he
        exact hmsg he
      · rcases getExtension_past_checks notExist input h1 h2 with h | ⟨e2, h⟩
        · rw [h] at he; cases he
        · rw [h] at he; cases he
    · intro h1
      refine ⟨⟨incomingPath ++ input, [], [], []⟩, ?_⟩
      unfold getExtension
      simp only [h1, if_true]
  · constructor
    · rintro ⟨e, he⟩
      by_cases h1 : notExist (incomingPath ++ input) = true
      · unfold getExtension at he
        simp only [h1, if_true] at he
        injection he with he
        injection he with _ he
        injection he with he
        exact absurd he.symm hmsg
      · have h1f : notExist (incomingPath ++ input) = false := by simpa using h1
        refine ⟨h1f, ?_⟩
        by_contra hmem
        have h2 : ¬ lastIndex (incomingPath ++ input) (lit ".") < 2 := by
          rw [lastIndex_fullPath_dot]; exact fun h => h hmem
        rcases getExtension_past_checks notExist input h1f h2 with h | ⟨e2, h⟩
        · rw [h] at he; cases he
        · rw [h] at he; cases he
    · rintro ⟨h1, hno⟩
      have h2 : lastIndex (incomingPath ++ input) (lit ".") < 2 :=
        (lastIndex_fullPath_dot input).mpr hno
      refine ⟨⟨incomingPath ++ input, [], [], []⟩, ?_⟩
      unfold getExtension
      simp only [h1, h2, if_true, if_false, Bool.false_eq_true]

/-- C2, as the code has it: `getExtension` reports "is not exist." exactly when
`os.Stat` on `incoming/` followed by the input fails with the error ENOENT, the only
error for which `os.IsNotExist` holds; it reports "has not extension." exactly when
`os.Stat` did not fail so (in particular when the file exists) and the input has no
`.`; the test on the last index of `.` in the full path is equivalent to the input
having no `.`. -/
theorem getExtension_validation (stat : GoString → StatResult) (input : GoString) :
    ((∃ e, getExtension (fun p => isNotExist (stat p)) input
          = .ret (e, some (input ++ lit " is not exist.")))
        ↔ stat (incomingPath ++ input) = .notExist)
    ∧ ((∃ e, getExtension (fun p => isNotExist (stat p)) input
          = .ret (e, some (input ++ lit " has not extension.")))
        ↔ (stat (incomingPath ++ input) ≠ .notExist ∧ '.'.toNat ∉ input))
    ∧ (stat (incomingPath ++ input) = .found →
        ((∃ e, getExtension (fun p => isNotExist (stat p)) input
            = .ret (e, some (input ++ lit " has not extension.")))
          ↔ '.'.toNat ∉ input))
    ∧ (lastIndex (incomingPath ++ input) (lit ".") < 2 ↔ '.'.toNat ∉ input) := by
  have h := getExtension_checks (fun p => isNotExist (stat p)) input
  have hT : isNotExist (stat (incomingPath ++ input)) = true
      ↔ stat (incomingPath ++ input) = .notExist := by
    cases stat (incomingPath ++ input) <;> simp [isNotExist]
  have hF : isNotExist (stat (incomingPath ++ input)) = false
      ↔ stat (incomingPath ++ input) ≠ .notExist := by
    cases stat (incomingPath ++ input) <;> simp [isNotExist]
  refine ⟨h.1.trans hT, ?_, ?_, h.2.2⟩
  · rw [h.2.1, hF]
  · intro hf
    rw [h.2.1, hF, hf]
    simp

theorem getExtension_validation_witness :
    (fun _ => StatResult.found) (incomingPath ++ lit "clip") = StatResult.found
    ∧ ((∃ e, getExtension (fun p => isNotExist ((fun _ => StatResult.found) p)) (lit "clip")
          = .ret (e, some (lit "clip" ++ lit " has not extension.")))
        ↔ '.'.toNat ∉ lit "clip")
    ∧ '.'.toNat ∉ lit "clip" :=
  ⟨rfl, (getExtension_validation (fun _ => StatResult.found) (lit "clip")).2.2.1 rfl,
    by decide⟩

/-- C2 as stated fails: in a file system where `incoming/a.mp4` is a regular file,
nothing exists at `incoming/a.mp4/x.y` (`os.Stat` fails with ENOTDIR), and
`getExtension` returns no error for the input `a.mp4/x.y`. -/
theorem getExtension_accepts_absent_file :
    sampleStat (incomingPath ++ lit "a.mp4/x.y") = .notDir
    ∧ noFileAt (sampleStat (incomingPath ++ lit "a.mp4/x.y")) = true
    ∧ isNotExist (sampleStat (incomingPath ++ lit "a.mp4/x.y")) = false
    ∧ getExtension (fun p => isNotExist (sampleStat p)) (lit "a.mp4/x.y")
        = .ret (⟨lit "incoming/a.mp4/x.y", lit "a.mp4/", lit "y", lit "x"⟩, none) := by
  decide

/-- What `getExtension` returns for an existing file whose name has a `.` after which
neither `.` nor `/` occurs. -/
theorem getExtension_ok (notExist : GoString → Bool) (pre post : GoString)
    (hex : notExist (incomingPath ++ (pre ++ '.'.toNat :: post)) = false)
    (hdot : '.'.toNat ∉ post) (hslash : '/'.toNat ∉ post) :
    ∃ path name, pre = path ++ name ∧ '/'.toNat ∉ name
      ∧ (path = [] ∨ ∃ p, path = p ++ ['/'.toNat])
      ∧ getExtension notExist (pre ++ '.'.toNat :: post)
        = .ret ({ FullPath := incomingPath ++ (pre ++ '.'.toNat :: post), Path := path,
                  Extension := post, Name := name }, none) := by
  have hmem : '.'.toNat ∈ pre ++ '.'.toNat :: post := by simp
  have h2 : ¬ lastIndex (incomingPath ++ (pre ++ '.'.toNat :: post)) (lit ".") < 2 := by
    rw [lastIndex_fullPath_dot]; exact fun h => h hmem
  have hd : lastIndex (pre ++ '.'.toNat :: post) (lit ".") = (pre.length : Int) := by
    rw [lit_dot]; exact lastIndex_byte_last _ pre post hdot
  have hext : slice (pre ++ '.'.toNat :: post) ((pre.length : Int) + 1)
      ((pre ++ '.'.toNat :: post).length : Int) = .ret post :=
    slice_parts _ (pre ++ ['.'.toNat]) post [] _ _ (by simp) (by simp) (by simp; omega)
  by_cases hs : '/'.toNat ∈ pre
  · obtain ⟨p, name, hp, hn⟩ := exists_last_occurrence _ _ hs
    have hn2 : '/'.toNat ∉ name ++ '.'.toNat :: post := by
      intro hm
      rcases List.mem_append.mp hm with h | h
      · exact hn h
      · rcases List.mem_cons.mp h with h | h
        · exact absurd h (by decide)
        · exact hslash h
    have hsl : lastIndex (pre ++ '.'.toNat :: post) (lit "/") = (p.length : Int) := by
      rw [lit_slash, hp, List.append_assoc, List.cons_append]
      exact lastIndex_byte_last _ p _ hn2
    have hpath : slice (pre ++ '.'.toNat :: post) 0 ((p.length : Int) + 1)
        = .ret (p ++ ['/'.toNat]) :=
      slice_parts _ [] (p ++ ['/'.toNat]) (name ++ '.'.toNat :: post) _ _ (by simp [hp])
        (by simp) (by simp)
    have hname : slice (pre ++ '.'.toNat :: post) ((p.length : Int) + 1) (pre.length : Int)
        = .ret name :=
      slice_parts _ (p ++ ['/'.toNat]) name ('.'.toNat :: post) _ _ (by simp [hp])
        (by simp) (by simp [hp]; omega)
    refine ⟨p ++ ['/'.toNat], name, by simp [hp], hn, Or.inr ⟨p, rfl⟩, ?_⟩
    unfold getExtension
    simp only [hex, h2, if_false, Bool.false_eq_true, hd, hsl, hext, hpath, hname, ret_bind,
      pure_eq_ret]
  · have hn2 : '/'.toNat ∉ pre ++ '.'.toNat :: post := by
      intro hm
      rcases List.mem_append.mp hm with h | h
      · exact hs h
      · rcases List.mem_cons.mp h with h | h
        · exact absurd h (by decide)
        · exact hslash h
    have hsl : lastIndex (pre ++ '.'.toNat :: post) (lit "/") = -1 := by
      rw [lit_slash]; exact lastIndex_byte_absent _ _ hn2
    have hpath : slice (pre ++ '.'.toNat :: post) 0 0 = .ret [] :=
      slice_parts _ [] [] (pre ++ '.'.toNat :: post) _ _ (by simp) (by simp) (by simp)
    have hname : slice (pre ++ '.'.toNat :: post) 0 (pre.length : Int) = .ret pre :=
      slice_parts _ [] pre ('.'.toNat :: post) _ _ (by simp) (by simp) (by simp)
    refine ⟨[], pre, by simp, hs, Or.inl rfl, ?_⟩
    unfold getExtension
    simp only [hex, h2, if_false, Bool.false_eq_true, hd, hsl, hext, hpath, hname, ret_bind,
      pure_eq_ret, neg_add_cancel]

/-- C3: for an existing file whose name has a `.` that is followed by neither `.` nor
`/` (its last `.` comes after its last `/`, or it has no `/`), `getExtension` succeeds
and splits the name without loss: the full path is `incoming/` followed by the input,
the input is the path, the name, a `.` and the extension in this order, the path is
empty or ends with `/`, the name has no `/`, and the extension has neither `.` nor `/`. -/
theorem getExtension_split (notExist : GoString → Bool) (input pre post : GoString)
    (hin : input = pre ++ '.'.toNat :: post)
    (hex : notExist (incomingPath ++ input) = false)
    (hdot : '.'.toNat ∉ post) (hslash : '/'.toNat ∉ post) :
    ∃ e, getExtension notExist input = .ret (e, none)
      ∧ e.FullPath = incomingPath ++ input
      ∧ e.Path ++ e.Name ++ lit "." ++ e.Extension = input
      ∧ (e.Path = [] ∨ e.Path.getLast? = some '/'.toNat)
      ∧ '/'.toNat ∉ e.Name
      ∧ '.'.toNat ∉ e.Extension ∧ '/'.toNat ∉ e.Extension := by
  subst hin
  obtain ⟨path, name, hpre, hname, hpath, hget⟩ := getExtension_ok notExist pre post hex hdot hslash
  refine ⟨_, hget, rfl, ?_, ?_, hname, hdot, hslash⟩
  · simp [hpre, lit_dot]
  · rcases hpath with h | ⟨p, h⟩
    · exact Or.inl h
    · right; simp [h]

theorem getExtension_split_witness :
    lit "clips/a.b.mp4" = lit "clips/a.b" ++ '.'.toNat :: lit "mp4"
    ∧ (fun _ => false) (incomingPath ++ lit "clips/a.b.mp4") = false
    ∧ '.'.toNat ∉ lit "mp4" ∧ '/'.toNat ∉ lit "mp4"
    ∧ ∃ e, getExtension (fun _ => false) (lit "clips/a.b.mp4") = .ret (e, none)
      ∧ e.FullPath = incomingPath ++ lit "clips/a.b.mp4"
      ∧ e.Path ++ e.Name ++ lit "." ++ e.Extension = lit "clips/a.b.mp4"
      ∧ (e.Path = [] ∨ e.Path.getLast? = some '/'.toNat)
      ∧ '/'.toNat ∉ e.Name
      ∧ '.'.toNat ∉ e.Extension ∧ '/'.toNat ∉ e.Extension :=
  ⟨by decide, rfl, by decide, by decide,
    getExtension_split (fun _ => false) (lit "clips/a.b.mp4") (lit "clips/a.b") (lit "mp4")
      (by decide) rfl (by decide) (by decide)⟩

/-- C10: on the name `a.b/c` of an existing file `getExtension` does not return: the
slice for the name has its lower bound 4 above its upper bound 1, and Go panics. -/
theorem getExtension_panics_on_dotted_directory :
    lastIndex (lit "a.b/c") (lit "/") + 1 = 4 ∧ lastIndex (lit "a.b/c") (lit ".") = 1
    ∧ slice (lit "a.b/c") 4 1 = .panic
    ∧ getExtension (fun _ => false) (lit "a.b/c") = .panic := by
  decide


/-- What a successful `getExtension` tells about its input. -/
theorem getExtension_inv (notExist : GoString → Bool) (input : GoString) (e : Extension)
    (h : getExtension notExist input = .ret (e, none)) :
    e.FullPath = incomingPath ++ input
      ∧ ∃ pre, input = pre ++ '.'.toNat :: e.Extension ∧ '.'.toNat ∉ e.Extension := by
  by_cases h1 : notExist (incomingPath ++ input) = true
  · unfold getExtension at h
    simp only [h1, if_true] at h
    cases h
  · have h1f : notExist (incomingPath ++ input) = false := by simpa using h1
    by_cases h2 : lastIndex (incomingPath ++ input) (lit ".") < 2
    · unfold getExtension at h
      simp only [h1f, h2, if_true, if_false, Bool.false_eq_true] at h
      cases h
    · have hmem : '.'.toNat ∈ input := by
        by_contra hno
        exact h2 ((lastIndex_fullPath_dot input).mpr hno)
      obtain ⟨pre, post, hs, hp⟩ := exists_last_occurrence _ _ hmem
      have hd : lastIndex input (lit ".") = (pre.length : Int) := by
        rw [lit_dot, hs]; exact lastIndex_byte_last _ pre post hp
      have hext : slice input ((pre.length : Int) + 1) (input.length : Int) = .ret post :=
        slice_parts _ (pre ++ ['.'.toNat]) post [] _ _ (by simp [hs]) (by simp)
          (by simp [hs]; omega)
      unfold getExtension at h
      simp only [h1f, h2, if_false, Bool.false_eq_true, hd, hext] at h
      cases hp1 : slice input 0 (lastIndex input (lit "/") + 1) with
      | panic => rw [hp1] at h; cases h
      | ret path =>
        cases hp2 : slice input (lastIndex input (lit "/") + 1) (pre.length : Int) with
        | panic => rw [hp1, hp2] at h; cases h
        | ret name =>
          rw [hp1, hp2] at h
          simp only [ret_bind, pure_eq_ret] at h
          injection h with h
          injection h with h _
          subst h
          exact ⟨rfl, pre, hs, hp⟩

theorem lastIndexFrom_ge (s substr : GoString) (j : Nat)
    (hj : substr.isPrefixOf (s.drop j) = true) :
    ∀ k, j ≤ k → (j : Int) ≤ lastIndexFrom s substr k ∧ lastIndexFrom s substr k ≤ (k : Int) := by
  intro k
  induction k with
  | zero =>
    intro hjk
    have hj0 : j = 0 := by omega
    subst hj0
    simp only [List.drop_zero] at hj
    simp [lastIndexFrom, hj]
  | succ k ih =>
    intro hjk
    by_cases hk : substr.isPrefixOf (s.drop (k + 1)) = true
    · simp only [lastIndexFrom, hk, if_true]
      omega
    · have hk2 : substr.isPrefixOf (s.drop (k + 1)) = false := Bool.eq_false_iff.mpr hk
      have hne : j ≠ k + 1 := by
        intro h; subst h; rw [hj] at hk2; cases hk2
      simp only [lastIndexFrom, hk2]
      have := ih (by omega)
      simp only [Bool.false_eq_true, if_false]
      omega

/-- In a string that contains `substr`, the last index of `substr` is a valid bound of
a slice. -/
theorem lastIndex_of_occurrence (a substr b : GoString) :
    0 ≤ lastIndex (a ++ substr ++ b) substr
      ∧ lastIndex (a ++ substr ++ b) substr ≤ ((a ++ substr ++ b).length : Int) := by
  unfold lastIndex
  have hlen : ¬ (a ++ substr ++ b).length < substr.length := by simp; omega
  rw [if_neg hlen]
  have hp : substr.isPrefixOf ((a ++ substr ++ b).drop a.length) = true := by
    rw [List.append_assoc, List.drop_left]
    simp
  have h := lastIndexFrom_ge (a ++ substr ++ b) substr a.length hp
    ((a ++ substr ++ b).length - substr.length) (by simp; omega)
  omega

/-! ## The handler, stage by stage -/

theorem transcoding_of_input (env : Env) (source options : GoString) (finfo : Extension)
    (tr : List Effect) (cmdInput : GoString)
    (hget : getExtension env.notExist source = .ret (finfo, none))
    (hin : inputStage env source finfo = (tr, .inl cmdInput)) :
    transcoding env source options
      = (tr ++ (encodeStage env source options finfo cmdInput).1,
          (encodeStage env source options finfo cmdInput).2) := by
  unfold transcoding
  simp only [hget, hin]

theorem inputStage_not_zip (env : Env) (source : GoString) (finfo : Extension)
    (h : finfo.Extension ≠ lit "zip") : inputStage env source finfo = ([], .inl source) := by
  unfold inputStage
  rw [if_neg h]

theorem inputStage_zip (env : Env) (source : GoString) (finfo : Extension) (d : GoString)
    (h : finfo.Extension = lit "zip")
    (hs : slice finfo.FullPath 0 (lastIndex finfo.FullPath (lit ".zip")) = .ret d)
    (hu : (unzip env.openReader finfo.FullPath d).2 = .ret none) :
    inputStage env source finfo
      = ((unzip env.openReader finfo.FullPath d).1, .inl (d ++ lit "/%d.jpg")) := by
  unfold inputStage
  rw [if_pos h]
  simp only [hs]
  rcases hx : unzip env.openReader finfo.FullPath d with ⟨t, r⟩
  rw [hx] at hu
  simp only at hu
  subst hu
  rfl

/-- For an accepted archive the slice that names the extraction directory does not
panic: it is the full path without its final `.zip`. -/
theorem unzipPath_of_zip (notExist : GoString → Bool) (source : GoString) (finfo : Extension)
    (hget : getExtension notExist source = .ret (finfo, none))
    (hzip : finfo.Extension = lit "zip") :
    ∃ d, d ++ lit ".zip" = incomingPath ++ source
      ∧ slice finfo.FullPath 0 (lastIndex finfo.FullPath (lit ".zip")) = .ret d := by
  obtain ⟨hfull, pre, hs, _⟩ := getExtension_inv notExist source finfo hget
  rw [hzip] at hs
  have hsrc : incomingPath ++ source = (incomingPath ++ pre) ++ lit ".zip" := by
    rw [hs, List.append_assoc]; rfl
  refine ⟨incomingPath ++ pre, hsrc.symm, ?_⟩
  rw [hfull, hsrc, lastIndex_suffix]
  exact slice_parts _ [] (incomingPath ++ pre) (lit ".zip") _ _ (by simp) (by simp) (by simp)

theorem clearFile_of_slice (finfo : Extension) (d : GoString)
    (hs : slice finfo.FullPath 0 (lastIndex finfo.FullPath (lit ".zip")) = .ret d) :
    clearFile finfo = ([.removeAll finfo.FullPath, .removeAll d], .ret ()) := by
  unfold clearFile
  simp only [hs]

theorem clearFile_of_panic (finfo : Extension)
    (hs : slice finfo.FullPath 0 (lastIndex finfo.FullPath (lit ".zip")) = .panic) :
    clearFile finfo = ([.removeAll finfo.FullPath], .panic) := by
  unfold clearFile
  simp only [hs]

theorem encodeStage_ffmpeg_failed (env : Env) (source options : GoString) (finfo : Extension)
    (cmdInput e : GoString) (tr : List Effect) (r : Go Unit)
    (hrun : (env.run env.ffmpeg (ffmpegArgs env options finfo cmdInput)).err = some e) :
    clearFile finfo = (tr, r) →
    encodeStage env source options finfo cmdInput
      = match r with
        | .panic =>
          ((if env.outMissing (outPath env) then [.mkdirAll (outPath env)] else [])
            ++ [.exec env.ffmpeg (ffmpegArgs env options finfo cmdInput)] ++ tr, .panic)
        | .ret _ =>
          ((if env.outMissing (outPath env) then [.mkdirAll (outPath env)] else [])
            ++ [.exec env.ffmpeg (ffmpegArgs env options finfo cmdInput)] ++ tr
            ++ [.logError ⟨lit "003", lit "ffmpeg",
                replaceAll (env.run env.ffmpeg (ffmpegArgs env options finfo cmdInput)).stderr
                  incomingPath []⟩],
            .error (some ⟨500, ⟨lit "003", lit "ffmpeg",
                replaceAll (env.run env.ffmpeg (ffmpegArgs env options finfo cmdInput)).stderr
                  incomingPath []⟩⟩)) := by
  intro hclear
  unfold encodeStage
  simp only [hrun, hclear]
  cases r <;> rfl

theorem encodeStage_ffprobe_failed (env : Env) (source options : GoString) (finfo : Extension)
    (cmdInput e : GoString) (tr : List Effect) (r : Go Unit)
    (hrun : (env.run env.ffmpeg (ffmpegArgs env options finfo cmdInput)).err = none)
    (hprobe : (env.run env.ffprobe (ffprobeArgs env finfo)).err = some e) :
    clearFile finfo = (tr, r) →
    encodeStage env source options finfo cmdInput
      = match r with
        | .panic =>
          ((if env.outMissing (outPath env) then [.mkdirAll (outPath env)] else [])
            ++ [.exec env.ffmpeg (ffmpegArgs env options finfo cmdInput)]
            ++ [.exec env.ffprobe (ffprobeArgs env finfo)] ++ tr, .panic)
        | .ret _ =>
          ((if env.outMissing (outPath env) then [.mkdirAll (outPath env)] else [])
            ++ [.exec env.ffmpeg (ffmpegArgs env options finfo cmdInput)]
            ++ [.exec env.ffprobe (ffprobeArgs env finfo)] ++ tr
            ++ [.logError ⟨lit "004", lit "ffprobe",
                replaceAll ((env.run env.ffmpeg (ffmpegArgs env options finfo cmdInput)).stderr
                  ++ (env.run env.ffprobe (ffprobeArgs env finfo)).stderr) incomingPath []⟩],
            .error (some ⟨500, ⟨lit "004", lit "ffprobe",
                replaceAll ((env.run env.ffmpeg (ffmpegArgs env options finfo cmdInput)).stderr
                  ++ (env.run env.ffprobe (ffprobeArgs env finfo)).stderr) incomingPath []⟩⟩)) := by
  intro hclear
  unfold encodeStage
  simp only [hrun, hprobe, hclear]
  cases r <;> rfl

theorem encodeStage_succeeded (env : Env) (source options : GoString) (finfo : Extension)
    (cmdInput : GoString)
    (hrun : (env.run env.ffmpeg (ffmpegArgs env options finfo cmdInput)).err = none)
    (hprobe : (env.run env.ffprobe (ffprobeArgs env finfo)).err = none) :
    encodeStage env source options finfo cmdInput
      = ((if env.outMissing (outPath env) then [.mkdirAll (outPath env)] else [])
            ++ [.exec env.ffmpeg (ffmpegArgs env options finfo cmdInput)]
            ++ [.exec env.ffprobe (ffprobeArgs env finfo)]
            ++ (finishStage env source finfo
                  (env.run env.ffprobe (ffprobeArgs env finfo)).stdout).1,
          (finishStage env source finfo
                  (env.run env.ffprobe (ffprobeArgs env finfo)).stdout).2) := by
  unfold encodeStage
  simp only [hrun, hprobe]

theorem exec_mem_encodeStage (env : Env) (source options : GoString) (finfo : Extension)
    (cmdInput : GoString) :
    Effect.exec env.ffmpeg (ffmpegArgs env options finfo cmdInput)
      ∈ (encodeStage env source options finfo cmdInput).1 := by
  unfold encodeStage
  simp only
  split
  · split <;> simp
  · split
    · split <;> simp
    · simp


/-! ## Runes and fields -/

theorem firstByte_bounds (b sz lo hi : Nat) (h : firstByte b = some (sz, lo, hi)) :
    0x80 ≤ lo ∧ 2 ≤ sz ∧ sz ≤ 4 := by
  unfold firstByte at h
  repeat' split at h
  all_goals first
    | (cases h; decide)
    | cases h

theorem decodeRune_ascii (c : Nat) (b : GoString) (hc : c < 0x80) :
    decodeRune (c :: b) = (c, 1) := by
  simp [decodeRune, hc]

theorem decodeRune_width_pos (s : GoString) (h : s ≠ []) : 1 ≤ (decodeRune s).2 := by
  cases s with
  | nil => exact absurd rfl h
  | cons s0 rest =>
    unfold decodeRune
    simp only
    repeat' split
    all_goals simp

theorem inRange_lt_length (l : GoString) (i lo hi : Nat) (h : inRange l[i]? lo hi = true) :
    i < l.length := by
  by_contra hlt
  have hn : l[i]? = none := List.getElem?_eq_none (by omega)
  rw [hn] at h
  simp [inRange] at h

theorem decodeRune_width_le (s : GoString) : (decodeRune s).2 ≤ s.length := by
  cases s with
  | nil => simp [decodeRune]
  | cons s0 rest =>
    unfold decodeRune
    simp only
    split
    · simp
    · split
      · simp
      · rename_i sz lo hi _
        by_cases h0 : inRange rest[0]? lo hi = true
        · have l0 := inRange_lt_length rest 0 lo hi h0
          simp only [h0, Bool.not_true, Bool.false_eq_true, if_false]
          split
          · simp; omega
          · by_cases h1 : inRange rest[1]? 0x80 0xBF = true
            · have l1 := inRange_lt_length rest 1 _ _ h1
              simp only [h1, Bool.not_true, Bool.false_eq_true, if_false]
              split
              · simp; omega
              · by_cases h2 : inRange rest[2]? 0x80 0xBF = true
                · have l2 := inRange_lt_length rest 2 _ _ h2
                  simp only [h2, Bool.not_true, Bool.false_eq_true, if_false]
                  simp; omega
                · simp [h2]
            · simp [h1]
        · simp [h0]

theorem inRange_append_ascii (a b : GoString) (c i lo hi : Nat) (hc : c < 0x80)
    (hlo : 0x80 ≤ lo) (hi1 : i ≤ a.length) :
    inRange (a ++ c :: b)[i]? lo hi = inRange a[i]? lo hi := by
  by_cases hlt : i < a.length
  · rw [List.getElem?_append_left hlt]
  · have he : i = a.length := by omega
    subst he
    have h1 : (a ++ c :: b)[a.length]? = some c := by
      rw [List.getElem?_append_right (le_refl _)]
      simp
    have h2 : a[a.length]? = none := List.getElem?_eq_none (le_refl _)
    rw [h1, h2]
    simp [inRange]
    omega

theorem getD_append_of_inRange (a b : GoString) (c i lo hi : Nat)
    (h : inRange a[i]? lo hi = true) :
    (a ++ c :: b)[i]?.getD 0 = a[i]?.getD 0 := by
  rw [List.getElem?_append_left (inRange_lt_length a i lo hi h)]

/-- An ASCII byte after a non-empty string does not change the first rune decoded. -/
theorem decodeRune_append_ascii (a b : GoString) (c : Nat) (ha : a ≠ []) (hc : c < 0x80) :
    decodeRune (a ++ c :: b) = decodeRune a := by
  cases a with
  | nil => exact absurd rfl ha
  | cons s0 rest =>
    rw [List.cons_append]
    unfold decodeRune
    simp only
    split
    · rfl
    · split
      · rfl
      · rename_i sz lo hi hfb
        have hb := firstByte_bounds s0 sz lo hi hfb
        have e0 := inRange_append_ascii rest b c 0 lo hi hc hb.1 (Nat.zero_le _)
        rw [e0]
        by_cases h0 : inRange rest[0]? lo hi = true
        · have g0 := getD_append_of_inRange rest b c 0 lo hi h0
          have l0 := inRange_lt_length rest 0 lo hi h0
          have e1 := inRange_append_ascii rest b c 1 0x80 0xBF hc (le_refl _) (by omega)
          rw [e1, g0]
          simp only [h0, Bool.not_true, Bool.false_eq_true, if_false]
          split
          · rfl
          · by_cases h1 : inRange rest[1]? 0x80 0xBF = true
            · have g1 := getD_append_of_inRange rest b c 1 _ _ h1
              have l1 := inRange_lt_length rest 1 _ _ h1
              have e2 := inRange_append_ascii rest b c 2 0x80 0xBF hc (le_refl _) (by omega)
              rw [e2, g1]
              simp only [h1, Bool.not_true, Bool.false_eq_true, if_false]
              split
              · rfl
              · by_cases h2 : inRange rest[2]? 0x80 0xBF = true
                · have g2 := getD_append_of_inRange rest b c 2 _ _ h2
                  rw [g2]
                · simp [h2]
            · simp [h1]
        · simp [h0]

theorem runesFuel_nil (n : Nat) : runesFuel n [] = [] := by
  cases n <;> rfl

theorem runesFuel_enough (n : Nat) :
    ∀ (m : Nat) (s : GoString), s.length ≤ n → s.length ≤ m → runesFuel n s = runesFuel m s := by
  induction n with
  | zero =>
    intro m s hn _
    have hs : s = [] := List.length_eq_zero.mp (by omega)
    subst hs
    rw [runesFuel_nil, runesFuel_nil]
  | succ n ih =>
    intro m s hn hm
    cases s with
    | nil => rw [runesFuel_nil, runesFuel_nil]
    | cons b rest =>
      cases m with
      | zero => simp at hm
      | succ m =>
        have hw := decodeRune_width_pos (b :: rest) (by simp)
        have hl : ((b :: rest).drop (decodeRune (b :: rest)).2).length ≤ rest.length := by
          rw [List.length_drop]
          simp only [List.length_cons]
          omega
        simp only [List.length_cons] at hn hm
        simp only [runesFuel]
        rw [ih m _ (by omega) (by omega)]

/-- The runes of a non-empty string: the first one, then those of the rest. -/
theorem runes_cons (s : GoString) (h : s ≠ []) :
    runes s = ((decodeRune s).1, s.take (decodeRune s).2) :: runes (s.drop (decodeRune s).2) := by
  cases s with
  | nil => exact absurd rfl h
  | cons b rest =>
    have hw := decodeRune_width_pos (b :: rest) (by simp)
    have hl : ((b :: rest).drop (decodeRune (b :: rest)).2).length ≤ rest.length := by
      rw [List.length_drop]
      simp only [List.length_cons]
      omega
    unfold runes
    simp only [List.length_cons, runesFuel]
    rw [runesFuel_enough rest.length _ _ hl (le_refl _)]

theorem runes_nil : runes [] = [] := rfl

/-- An ASCII byte inside a string is a rune of its own, between the runes of what
precedes it and the runes of what follows it. -/
theorem runes_append_ascii (c : Nat) (b : GoString) (hc : c < 0x80) :
    ∀ (n : Nat) (a : GoString), a.length ≤ n →
      runes (a ++ c :: b) = runes a ++ (c, [c]) :: runes b := by
  intro n
  induction n with
  | zero =>
    intro a ha
    have hs : a = [] := List.length_eq_zero.mp (by omega)
    subst hs
    rw [List.nil_append, runes_cons _ (by simp), decodeRune_ascii c b hc]
    simp [runes_nil]
  | succ n ih =>
    intro a ha
    by_cases hnil : a = []
    · subst hnil
      rw [List.nil_append, runes_cons _ (by simp), decodeRune_ascii c b hc]
      simp [runes_nil]
    · have hw := decodeRune_width_pos a hnil
      have hle := decodeRune_width_le a
      rw [runes_cons (a ++ c :: b) (by simp), decodeRune_append_ascii a b c hnil hc,
        runes_cons a hnil, List.take_append_of_le_length hle,
        List.drop_append_of_le_length hle,
        ih (a.drop (decodeRune a).2) (by rw [List.length_drop]; omega)]
      rfl

/-- A separator rune ends the field collected so far. -/
theorem splitRunes_separator (f : Nat → Bool) (r : Nat) (bs : GoString)
    (tb : List (Nat × GoString)) (hr : f r = true) :
    ∀ (ta : List (Nat × GoString)) (cur : GoString),
      splitRunes f (ta ++ (r, bs) :: tb) cur = splitRunes f ta cur ++ splitRunes f tb [] := by
  intro ta
  induction ta with
  | nil => intro cur; simp [splitRunes, hr]
  | cons t ta ih =>
    intro cur
    obtain ⟨r1, b1⟩ := t
    by_cases h1 : f r1 = true
    · simp [splitRunes, h1, ih]
    · simp [splitRunes, h1, ih]

theorem splitRunes_no_separator (f : Nat → Bool) :
    ∀ (ta : List (Nat × GoString)) (cur : GoString), (∀ t ∈ ta, f t.1 = false) →
      splitRunes f ta cur = flush (cur ++ ta.foldr (fun t acc => t.2 ++ acc) []) := by
  intro ta
  induction ta with
  | nil => intro cur _; simp [splitRunes]
  | cons t ta ih =>
    intro cur h
    obtain ⟨r1, b1⟩ := t
    have h1 : f r1 = false := h (r1, b1) (by simp)
    have h2 : ∀ t ∈ ta, f t.1 = false := fun t ht => h t (by simp [ht])
    simp [splitRunes, h1, ih _ h2]

theorem runes_bytes : ∀ (n : Nat) (s : GoString), s.length ≤ n →
    (runes s).foldr (fun t acc => t.2 ++ acc) [] = s := by
  intro n
  induction n with
  | zero =>
    intro s hs
    have h : s = [] := List.length_eq_zero.mp (by omega)
    subst h
    rfl
  | succ n ih =>
    intro s hs
    by_cases hnil : s = []
    · subst hnil; rfl
    · have hw := decodeRune_width_pos s hnil
      rw [runes_cons s hnil]
      simp only [List.foldr_cons]
      rw [ih _ (by rw [List.length_drop]; omega), List.take_append_drop]

/-- White space (an ASCII byte) between two strings separates their fields. -/
theorem fields_append_space (a b : GoString) (c : Nat) (hc : c < 0x80) (hs : isSpace c = true) :
    fields (a ++ c :: b) = fields a ++ fields b := by
  unfold fields
  rw [runes_append_ascii c b hc a.length a (le_refl _), splitRunes_separator isSpace c [c] _ hs]

/-- A non-empty string without white space is a single field. -/
theorem fields_noSpace (s : GoString) (hne : s ≠ []) (h : noSpace s) : fields s = [s] := by
  unfold fields
  rw [splitRunes_no_separator isSpace _ _ h, runes_bytes s.length s (le_refl _)]
  simp [flush, hne]

/-- The transcoder's arguments when neither path holds white space. -/
theorem fields_cmdOption (cmdInput options output : GoString)
    (hi : cmdInput ≠ []) (ho : output ≠ []) (hin : noSpace cmdInput) (hout : noSpace output) :
    fields (cmdOption cmdInput options output)
      = [lit "-i", cmdInput] ++ fields options ++ [lit "-v", lit "16", output] := by
  have e : cmdOption cmdInput options output
      = lit "-i" ++ 32 :: (cmdInput ++ 32 :: (options ++ 32 :: (lit "-v" ++ 32 ::
          (lit "16" ++ 32 :: output)))) := by
    unfold cmdOption
    have e1 : lit "-i " = lit "-i" ++ [32] := by decide
    have e2 : lit " " = [32] := by decide
    have e3 : lit " -v 16 " = 32 :: (lit "-v" ++ 32 :: (lit "16" ++ [32])) := by decide
    rw [e1, e2, e3]
    simp
  have h32 : isSpace 32 = true := by decide
  have f1 : fields (lit "-i") = [lit "-i"] := by decide
  have f2 : fields (lit "-v") = [lit "-v"] := by decide
  have f3 : fields (lit "16") = [lit "16"] := by decide
  rw [e, fields_append_space _ _ 32 (by omega) h32, fields_append_space _ _ 32 (by omega) h32,
    fields_append_space _ _ 32 (by omega) h32, fields_append_space _ _ 32 (by omega) h32,
    fields_append_space _ _ 32 (by omega) h32, f1, f2, f3, fields_noSpace _ hi hin,
    fields_noSpace _ ho hout]
  simp


/-! ## The handler: the transcoder's arguments -/

theorem inputStage_inl (env : Env) (source : GoString) (finfo : Extension) (tr : List Effect)
    (cmdInput : GoString) (hin : inputStage env source finfo = (tr, .inl cmdInput)) :
    (finfo.Extension = lit "zip" ∧ ∃ d,
        slice finfo.FullPath 0 (lastIndex finfo.FullPath (lit ".zip")) = .ret d
        ∧ unzip env.openReader finfo.FullPath d = (tr, .ret none)
        ∧ cmdInput = d ++ lit "/%d.jpg")
    ∨ (finfo.Extension ≠ lit "zip" ∧ cmdInput = source ∧ tr = []) := by
  by_cases hz : finfo.Extension = lit "zip"
  · left
    refine ⟨hz, ?_⟩
    unfold inputStage at hin
    rw [if_pos hz] at hin
    cases hs : slice finfo.FullPath 0 (lastIndex finfo.FullPath (lit ".zip")) with
    | panic => rw [hs] at hin; cases hin
    | ret d =>
      rw [hs] at hin
      simp only at hin
      rcases hx : unzip env.openReader finfo.FullPath d with ⟨t, r⟩
      rw [hx] at hin
      rcases r with (_ | e) | _
      · simp only at hin
        injection hin with h1 h2
        injection h2 with h2
        exact ⟨d, rfl, by rw [hx, h1], h2.symm⟩
      · simp only at hin
        rcases hc : clearFile finfo with ⟨t2, _ | _⟩ <;> rw [hc] at hin <;> cases hin
      · cases hin
  · right
    rw [inputStage_not_zip env source finfo hz] at hin
    injection hin with h1 h2
    injection h2 with h2
    exact ⟨hz, h2.symm, h1.symm⟩

theorem cmdInput_ne_nil (env : Env) (source : GoString) (finfo : Extension) (tr : List Effect)
    (cmdInput : GoString)
    (hget : getExtension env.notExist source = .ret (finfo, none))
    (hin : inputStage env source finfo = (tr, .inl cmdInput)) : cmdInput ≠ [] := by
  rcases inputStage_inl env source finfo tr cmdInput hin with ⟨_, d, _, _, hc⟩ | ⟨_, hc, _⟩
  · rw [hc]
    intro h
    have := congrArg List.length h
    simp [lit] at this
  · obtain ⟨_, pre, hs, _⟩ := getExtension_inv env.notExist source finfo hget
    rw [hc, hs]
    simp

theorem cmdOutput_ne_nil (env : Env) (finfo : Extension) : cmdOutput env finfo ≠ [] := by
  intro h
  have := congrArg List.length h
  simp [cmdOutput, lit] at this

/-- C4: the option string is the fixed one when the request's options are shorter than
two bytes and the caller's otherwise; and when neither the transcoder's input nor its
output path holds white space, the transcoder is started with exactly the arguments
`-i`, the input, the fields of the option string, `-v`, `16` and the output path. -/
theorem transcoder_arguments (env : Env) (source options : GoString) (finfo : Extension)
    (tr : List Effect) (cmdInput : GoString)
    (hget : getExtension env.notExist source = .ret (finfo, none))
    (hin : inputStage env source finfo = (tr, .inl cmdInput))
    (hi : noSpace cmdInput) (ho : noSpace (cmdOutput env finfo)) :
    (options.length < 2 → effectiveOptions options = lit "-s 160x64 -c:v mjpeg -q:v 5 -r 20 -an")
    ∧ (¬ options.length < 2 → effectiveOptions options = options)
    ∧ ffmpegArgs env options finfo cmdInput
        = [lit "-i", cmdInput] ++ fields (effectiveOptions options)
            ++ [lit "-v", lit "16", cmdOutput env finfo]
    ∧ Effect.exec env.ffmpeg ([lit "-i", cmdInput] ++ fields (effectiveOptions options)
            ++ [lit "-v", lit "16", cmdOutput env finfo]) ∈ (transcoding env source options).1 := by
  have hargs : ffmpegArgs env options finfo cmdInput
      = [lit "-i", cmdInput] ++ fields (effectiveOptions options)
          ++ [lit "-v", lit "16", cmdOutput env finfo] :=
    fields_cmdOption cmdInput (effectiveOptions options) (cmdOutput env finfo)
      (cmdInput_ne_nil env source finfo tr cmdInput hget hin) (cmdOutput_ne_nil env finfo) hi ho
  refine ⟨fun h => by unfold effectiveOptions; rw [if_pos h],
    fun h => by unfold effectiveOptions; rw [if_neg h], hargs, ?_⟩
  rw [← hargs, transcoding_of_input env source options finfo tr cmdInput hget hin]
  exact List.mem_append_right _ (exec_mem_encodeStage env source options finfo cmdInput)

theorem transcoder_arguments_witness :
    getExtension (sampleEnv quietRun quietRun).notExist (lit "clips/run.zip")
        = .ret (⟨lit "incoming/clips/run.zip", lit "clips/", lit "zip", lit "run"⟩, none)
    ∧ inputStage (sampleEnv quietRun quietRun) (lit "clips/run.zip")
          ⟨lit "incoming/clips/run.zip", lit "clips/", lit "zip", lit "run"⟩
        = ([.mkdirAll (lit "incoming/clips/run"),
            .mkdirAll (lit "incoming/clips/run"), .openFile (lit "incoming/clips/run/1.jpg"),
            .mkdirAll (lit "incoming/clips/run"), .openFile (lit "incoming/clips/run/2.jpg")],
          .inl (lit "incoming/clips/run/%d.jpg"))
    ∧ noSpace (lit "incoming/clips/run/%d.jpg")
    ∧ noSpace (cmdOutput (sampleEnv quietRun quietRun)
        ⟨lit "incoming/clips/run.zip", lit "clips/", lit "zip", lit "run"⟩)
    ∧ Effect.exec (lit "/usr/bin/ffmpeg")
        ([lit "-i", lit "incoming/clips/run/%d.jpg"] ++ fields (effectiveOptions (lit "-an -r  5"))
          ++ [lit "-v", lit "16", lit "outgoing/20240131/20240131235959_run.avi"])
        ∈ (transcoding (sampleEnv quietRun quietRun) (lit "clips/run.zip") (lit "-an -r  5")).1 :=
  ⟨by decide, by rfl, by decide, by decide,
    (transcoder_arguments (sampleEnv quietRun quietRun) (lit "clips/run.zip") (lit "-an -r  5")
      ⟨lit "incoming/clips/run.zip", lit "clips/", lit "zip", lit "run"⟩ _
      (lit "incoming/clips/run/%d.jpg") (by decide) (by rfl) (by decide) (by decide)).2.2.2⟩


/-! ## The handler: answers -/

theorem slice_url (env : Env) (finfo : Extension) :
    slice (cmdOutput env finfo) outgoingPath.length (cmdOutput env finfo).length
      = .ret (env.date ++ lit "/" ++ env.stamp ++ lit "_" ++ finfo.Name ++ lit ".avi") :=
  slice_parts _ outgoingPath _ [] _ _ (by simp [cmdOutput, outPath]) rfl
    (by simp [cmdOutput, outPath])

theorem finishStage_answer (env : Env) (source : GoString) (finfo : Extension)
    (out : GoString) (x : JSON) (xs : List JSON)
    (hslice : finfo.Extension = lit "zip" →
      ∃ d, slice finfo.FullPath 0 (lastIndex finfo.FullPath (lit ".zip")) = .ret d)
    (hjs : (env.unmarshal out).lookup (lit "streams") = some (.array (x :: xs))) :
    (finishStage env source finfo out).2
      = .json 200 { Message := lit "complete", Source := source,
                    URL := env.date ++ lit "/" ++ env.stamp ++ lit "_" ++ finfo.Name ++ lit ".avi",
                    Detail := x } := by
  unfold finishStage
  simp only [slice_url, firstStream, hjs]
  by_cases hz : finfo.Extension = lit "zip"
  · obtain ⟨d, hd⟩ := hslice hz
    simp only [hz, if_true, hd]
  · simp only [hz, if_false]

/-- C5: when the path is accepted, the handler reaches the transcoder (an archive, if
any, was extracted), the transcoder and the prober end without error and the prober's
output decodes to an object whose `streams` member is a non-empty array, the handler
answers 200 with message `complete`, the request's source, the output path without its
leading `outgoing/` as url (the date, `/`, the time stamp, `_`, the parsed name and
`.avi`), and the first element of `streams` as detail. -/
theorem success_answer (env : Env) (source options : GoString) (finfo : Extension)
    (tr : List Effect) (cmdInput : GoString) (x : JSON) (xs : List JSON)
    (hget : getExtension env.notExist source = .ret (finfo, none))
    (hin : inputStage env source finfo = (tr, .inl cmdInput))
    (hff : (env.run env.ffmpeg (ffmpegArgs env options finfo cmdInput)).err = none)
    (hpr : (env.run env.ffprobe (ffprobeArgs env finfo)).err = none)
    (hjs : (env.unmarshal (env.run env.ffprobe (ffprobeArgs env finfo)).stdout).lookup
        (lit "streams") = some (.array (x :: xs))) :
    (transcoding env source options).2
        = .json 200 { Message := lit "complete", Source := source,
                      URL := env.date ++ lit "/" ++ env.stamp ++ lit "_" ++ finfo.Name
                        ++ lit ".avi",
                      Detail := x }
    ∧ outgoingPath ++ (env.date ++ lit "/" ++ env.stamp ++ lit "_" ++ finfo.Name ++ lit ".avi")
        = cmdOutput env finfo
    ∧ Effect.exec env.ffprobe [lit "-show_streams", lit "-of", lit "json", cmdOutput env finfo]
        ∈ (transcoding env source options).1 := by
  rw [transcoding_of_input env source options finfo tr cmdInput hget hin,
    encodeStage_succeeded env source options finfo cmdInput hff hpr]
  refine ⟨?_, by simp [cmdOutput, outPath], by simp [ffprobeArgs]⟩
  exact finishStage_answer env source finfo _ x xs
    (fun hz => by
      obtain ⟨d, _, hd⟩ := unzipPath_of_zip env.notExist source finfo hget hz
      exact ⟨d, hd⟩) hjs

theorem success_answer_witness :
    getExtension (sampleEnv quietRun quietRun).notExist (lit "clips/run.zip")
        = .ret (⟨lit "incoming/clips/run.zip", lit "clips/", lit "zip", lit "run"⟩, none)
    ∧ inputStage (sampleEnv quietRun quietRun) (lit "clips/run.zip")
          ⟨lit "incoming/clips/run.zip", lit "clips/", lit "zip", lit "run"⟩
        = ([.mkdirAll (lit "incoming/clips/run"),
            .mkdirAll (lit "incoming/clips/run"), .openFile (lit "incoming/clips/run/1.jpg"),
            .mkdirAll (lit "incoming/clips/run"), .openFile (lit "incoming/clips/run/2.jpg")],
          .inl (lit "incoming/clips/run/%d.jpg"))
    ∧ (transcoding (sampleEnv quietRun quietRun) (lit "clips/run.zip") []).2
        = .json 200 { Message := lit "complete", Source := lit "clips/run.zip",
                      URL := lit "20240131/20240131235959_run.avi",
                      Detail := .string (lit "mjpeg") }
    ∧ outgoingPath ++ lit "20240131/20240131235959_run.avi"
        = lit "outgoing/20240131/20240131235959_run.avi" :=
  have h := success_answer (sampleEnv quietRun quietRun) (lit "clips/run.zip") []
      ⟨lit "incoming/clips/run.zip", lit "clips/", lit "zip", lit "run"⟩ _
      (lit "incoming/clips/run/%d.jpg") (.string (lit "mjpeg")) [.null]
      (by decide) (by rfl) rfl rfl rfl
  ⟨by decide, by rfl, h.1, h.2.1⟩

/-- C1: for the source `a.mp4`, an existing file that is no archive, a failing
transcoder makes the handler panic inside `clearFile`: the full path holds no `.zip`,
the slice bound is `-1`, and the error with code `003` is never produced. -/
theorem transcoder_failure_panics (env : Env) (options e : GoString)
    (hex : env.notExist (incomingPath ++ lit "a.mp4") = false)
    (hff : (env.run env.ffmpeg (ffmpegArgs env options
        ⟨lit "incoming/a.mp4", [], lit "mp4", lit "a"⟩ (lit "a.mp4"))).err = some e) :
    getExtension env.notExist (lit "a.mp4")
        = .ret (⟨lit "incoming/a.mp4", [], lit "mp4", lit "a"⟩, none)
    ∧ lastIndex (lit "incoming/a.mp4") (lit ".zip") = -1
    ∧ clearFile ⟨lit "incoming/a.mp4", [], lit "mp4", lit "a"⟩
        = ([.removeAll (lit "incoming/a.mp4")], .panic)
    ∧ (transcoding env (lit "a.mp4") options).2 = .panic := by
  have hget : getExtension env.notExist (lit "a.mp4")
      = .ret (⟨lit "incoming/a.mp4", [], lit "mp4", lit "a"⟩, none) := by
    unfold getExtension
    simp only [hex]
    decide
  have hclear : clearFile ⟨lit "incoming/a.mp4", [], lit "mp4", lit "a"⟩
      = ([.removeAll (lit "incoming/a.mp4")], .panic) := by decide
  refine ⟨hget, by decide, hclear, ?_⟩
  rw [transcoding_of_input env (lit "a.mp4") options _ [] (lit "a.mp4") hget
      (inputStage_not_zip env _ _ (by decide)),
    encodeStage_ffmpeg_failed env (lit "a.mp4") options _ (lit "a.mp4") e _ _ hff hclear]

theorem transcoder_failure_panics_witness :
    (sampleEnv (failedRun (lit "a.mp4: Invalid data found when processing input")) quietRun).notExist
        (incomingPath ++ lit "a.mp4") = false
    ∧ ((sampleEnv (failedRun (lit "a.mp4: Invalid data found when processing input"))
          quietRun).run (lit "/usr/bin/ffmpeg")
        (ffmpegArgs (sampleEnv (failedRun (lit "a.mp4: Invalid data found when processing input"))
          quietRun) [] ⟨lit "incoming/a.mp4", [], lit "mp4", lit "a"⟩ (lit "a.mp4"))).err
        = some (lit "exit status 1")
    ∧ (transcoding (sampleEnv (failedRun (lit "a.mp4: Invalid data found when processing input"))
        quietRun) (lit "a.mp4") []).2 = .panic :=
  ⟨rfl, rfl,
    (transcoder_failure_panics
      (sampleEnv (failedRun (lit "a.mp4: Invalid data found when processing input")) quietRun)
      [] (lit "exit status 1") rfl rfl).2.2.2⟩

/-- C8: for an accepted source that is no archive and holds no white space, the
transcoder is started with the request's source after `-i`, not with the full path
under `incoming/` whose existence was checked. -/
theorem transcoder_input_is_source (env : Env) (source options : GoString) (finfo : Extension)
    (hget : getExtension env.notExist source = .ret (finfo, none))
    (hnz : finfo.Extension ≠ lit "zip")
    (hi : noSpace source) (ho : noSpace (cmdOutput env finfo)) :
    Effect.exec env.ffmpeg ([lit "-i", source] ++ fields (effectiveOptions options)
        ++ [lit "-v", lit "16", cmdOutput env finfo]) ∈ (transcoding env source options).1
    ∧ finfo.FullPath = incomingPath ++ source
    ∧ source ≠ finfo.FullPath := by
  have hin := inputStage_not_zip env source finfo hnz
  have hfull := (getExtension_inv env.notExist source finfo hget).1
  refine ⟨?_, hfull, ?_⟩
  · rw [← fields_cmdOption source (effectiveOptions options) (cmdOutput env finfo)
        (cmdInput_ne_nil env source finfo [] source hget hin) (cmdOutput_ne_nil env finfo) hi ho,
      transcoding_of_input env source options finfo [] source hget hin]
    exact List.mem_append_right _ (exec_mem_encodeStage env source options finfo source)
  · rw [hfull]
    intro h
    have := congrArg List.length h
    simp [incomingPath, lit] at this
    omega

theorem transcoder_input_is_source_witness :
    getExtension (sampleEnv quietRun quietRun).notExist (lit "a.mp4")
        = .ret (⟨lit "incoming/a.mp4", [], lit "mp4", lit "a"⟩, none)
    ∧ lit "mp4" ≠ lit "zip"
    ∧ noSpace (lit "a.mp4")
    ∧ Effect.exec (lit "/usr/bin/ffmpeg") ([lit "-i", lit "a.mp4"]
        ++ fields (effectiveOptions [])
        ++ [lit "-v", lit "16", lit "outgoing/20240131/20240131235959_a.avi"])
        ∈ (transcoding (sampleEnv quietRun quietRun) (lit "a.mp4") []).1
    ∧ lit "a.mp4" ≠ lit "incoming/a.mp4" :=
  have h := transcoder_input_is_source (sampleEnv quietRun quietRun) (lit "a.mp4") []
      ⟨lit "incoming/a.mp4", [], lit "mp4", lit "a"⟩ (by decide) (by decide) (by decide)
      (by decide)
  ⟨by decide, by decide, by decide, h.1, h.2.2⟩


/-! ## The handler: error messages -/

theorem replaceFrom_absent (old : GoString) :
    ∀ s : GoString, (∀ j, old.isPrefixOf (s.drop j) = false) → replaceFrom old [] s 0 = s := by
  intro s
  induction s with
  | nil => intro _; rfl
  | cons b rest ih =>
    intro h
    have h0 := h 0
    simp only [List.drop_zero] at h0
    have hrest : ∀ j, old.isPrefixOf (rest.drop j) = false := fun j => by
      have := h (j + 1)
      simpa using this
    simp only [replaceFrom, h0, Bool.false_eq_true, if_false, ih hrest]

/-- Replacing in a text that does not contain `old` leaves the text as it is. -/
theorem replaceAll_absent (text old : GoString) (h : ∀ u v, text ≠ u ++ old ++ v) :
    replaceAll text old [] = text := by
  unfold replaceAll
  apply replaceFrom_absent
  intro j
  apply Bool.eq_false_iff.mpr
  intro hp
  obtain ⟨v, hv⟩ := List.isPrefixOf_iff_prefix.mp hp
  apply h (text.take j) v
  rw [List.append_assoc, hv, List.take_append_drop]

theorem slice_from_zero (s : GoString) (hi : Int) (h0 : 0 ≤ hi) (h1 : hi ≤ (s.length : Int)) :
    ∃ d, slice s 0 hi = .ret d := by
  unfold slice
  rw [if_pos ⟨le_refl _, h0, h1⟩]
  exact ⟨_, rfl⟩

theorem clearFile_of_occurrence (notExist : GoString → Bool) (source : GoString)
    (finfo : Extension) (a b : GoString)
    (hget : getExtension notExist source = .ret (finfo, none))
    (hz : source = a ++ lit ".zip" ++ b) :
    ∃ d, clearFile finfo = ([.removeAll finfo.FullPath, .removeAll d], .ret ()) := by
  have hfull := (getExtension_inv notExist source finfo hget).1
  have hf : finfo.FullPath = (incomingPath ++ a) ++ lit ".zip" ++ b := by
    rw [hfull, hz]; simp
  have hocc := lastIndex_of_occurrence (incomingPath ++ a) (lit ".zip") b
  rw [← hf] at hocc
  obtain ⟨d, hd⟩ := slice_from_zero finfo.FullPath _ hocc.1 hocc.2
  exact ⟨d, clearFile_of_slice finfo d hd⟩

/-- C6, as the code has it: for an accepted source whose path contains `.zip`, the
message of the error with code `003` is what the failed transcoder wrote to its
standard error with every `incoming/` removed, and, after a transcoder that wrote
nothing, the message of the error with code `004` is what the failed prober wrote with
every `incoming/` removed; a text without `incoming/` is reported as written. -/
theorem failure_message (env : Env) (source options : GoString) (finfo : Extension)
    (tr : List Effect) (cmdInput a b e : GoString)
    (hget : getExtension env.notExist source = .ret (finfo, none))
    (hin : inputStage env source finfo = (tr, .inl cmdInput))
    (hz : source = a ++ lit ".zip" ++ b) :
    ((env.run env.ffmpeg (ffmpegArgs env options finfo cmdInput)).err = some e →
      (transcoding env source options).2
        = .error (some ⟨500, ⟨lit "003", lit "ffmpeg",
            replaceAll (env.run env.ffmpeg (ffmpegArgs env options finfo cmdInput)).stderr
              incomingPath []⟩⟩))
    ∧ ((env.run env.ffmpeg (ffmpegArgs env options finfo cmdInput)).err = none →
        (env.run env.ffmpeg (ffmpegArgs env options finfo cmdInput)).stderr = [] →
        (env.run env.ffprobe (ffprobeArgs env finfo)).err = some e →
      (transcoding env source options).2
        = .error (some ⟨500, ⟨lit "004", lit "ffprobe",
            replaceAll (env.run env.ffprobe (ffprobeArgs env finfo)).stderr incomingPath []⟩⟩))
    ∧ (∀ text : GoString, (∀ u v, text ≠ u ++ incomingPath ++ v) →
        replaceAll text incomingPath [] = text) := by
  obtain ⟨d, hclear⟩ := clearFile_of_occurrence env.notExist source finfo a b hget hz
  refine ⟨?_, ?_, fun text h => replaceAll_absent text incomingPath h⟩
  · intro hff
    rw [transcoding_of_input env source options finfo tr cmdInput hget hin,
      encodeStage_ffmpeg_failed env source options finfo cmdInput e _ _ hff hclear]
  · intro hff herr hpr
    rw [transcoding_of_input env source options finfo tr cmdInput hget hin,
      encodeStage_ffprobe_failed env source options finfo cmdInput e _ _ hff hpr hclear, herr]
    rfl

theorem failure_message_witness :
    getExtension (sampleEnv (failedRun (lit "incoming/run/%d.jpg: No such file or directory"))
        quietRun).notExist (lit "run.zip")
      = .ret (⟨lit "incoming/run.zip", [], lit "zip", lit "run"⟩, none)
    ∧ lit "run.zip" = lit "run" ++ lit ".zip" ++ []
    ∧ (transcoding (sampleEnv (failedRun (lit "incoming/run/%d.jpg: No such file or directory"))
        quietRun) (lit "run.zip") []).2
      = .error (some ⟨500, ⟨lit "003", lit "ffmpeg",
          replaceAll (lit "incoming/run/%d.jpg: No such file or directory") incomingPath []⟩⟩) :=
  ⟨by decide, by decide,
    (failure_message
      (sampleEnv (failedRun (lit "incoming/run/%d.jpg: No such file or directory")) quietRun)
      (lit "run.zip") [] ⟨lit "incoming/run.zip", [], lit "zip", lit "run"⟩ _
      (lit "incoming/run/%d.jpg") (lit "run") [] (lit "exit status 1")
      (by decide) (by rfl) (by decide)).1 rfl⟩

/-- C6 as stated fails: the transcoder wrote `incoming/run/%d.jpg: No such file or
directory`, and the message of the error is `run/%d.jpg: No such file or directory`. -/
theorem failure_message_not_raw :
    (sampleEnv (failedRun (lit "incoming/run/%d.jpg: No such file or directory"))
        quietRun).run (lit "/usr/bin/ffmpeg") []
      = ⟨some (lit "exit status 1"), [], lit "incoming/run/%d.jpg: No such file or directory"⟩
    ∧ (transcoding (sampleEnv (failedRun (lit "incoming/run/%d.jpg: No such file or directory"))
        quietRun) (lit "run.zip") []).2
      = .error (some ⟨500, ⟨lit "003", lit "ffmpeg",
          lit "run/%d.jpg: No such file or directory"⟩⟩)
    ∧ lit "run/%d.jpg: No such file or directory"
      ≠ lit "incoming/run/%d.jpg: No such file or directory" :=
  ⟨rfl, rfl, by decide⟩


/-! ## The handler: the extraction directory -/

theorem inputStage_zip_of (env : Env) (source : GoString) (finfo : Extension) (d : GoString)
    (t : List Effect) (r : Go (Option GoString))
    (hz : finfo.Extension = lit "zip")
    (hs : slice finfo.FullPath 0 (lastIndex finfo.FullPath (lit ".zip")) = .ret d) :
    unzip env.openReader finfo.FullPath d = (t, r) →
    inputStage env source finfo
      = match r with
        | .panic => (t, .inr .panic)
        | .ret (some err) =>
          (t ++ [.removeAll finfo.FullPath, .removeAll d]
              ++ [.logError ⟨lit "002", lit "unzip", err⟩],
            .inr (.error (some ⟨500, ⟨lit "002", lit "unzip", err⟩⟩)))
        | .ret none => (t, .inl (d ++ lit "/%d.jpg")) := by
  intro hx
  unfold inputStage
  rw [if_pos hz]
  simp only [hs, hx]
  rcases r with (_ | err) | _
  · rfl
  · simp only [clearFile_of_slice finfo d hs, printError]
    rfl
  · rfl

theorem finishStage_zip (env : Env) (source : GoString) (finfo : Extension)
    (out d : GoString) (x : JSON) (xs : List JSON)
    (hz : finfo.Extension = lit "zip")
    (hs : slice finfo.FullPath 0 (lastIndex finfo.FullPath (lit ".zip")) = .ret d)
    (hjs : (env.unmarshal out).lookup (lit "streams") = some (.array (x :: xs))) :
    ∃ rest, (finishStage env source finfo out).1 = Effect.removeAll d :: rest := by
  unfold finishStage
  simp only [slice_url, firstStream, hjs, hz, if_true, hs]
  exact ⟨_, rfl⟩

/-- The first two arguments of the transcoder when its input holds no white space. -/
theorem fields_cmdOption_input (cmdInput options output : GoString)
    (hi : cmdInput ≠ []) (hin : noSpace cmdInput) :
    fields (cmdOption cmdInput options output)
      = lit "-i" :: cmdInput :: fields (options ++ lit " -v 16 " ++ output) := by
  have e : cmdOption cmdInput options output
      = lit "-i" ++ 32 :: (cmdInput ++ 32 :: (options ++ lit " -v 16 " ++ output)) := by
    unfold cmdOption
    have e1 : lit "-i " = lit "-i" ++ [32] := by decide
    have e2 : lit " " = [32] := by decide
    rw [e1, e2]
    simp
  have h32 : isSpace 32 = true := by decide
  have f1 : fields (lit "-i") = [lit "-i"] := by decide
  rw [e, fields_append_space _ _ 32 (by omega) h32, fields_append_space _ _ 32 (by omega) h32,
    f1, fields_noSpace _ hi hin]
  rfl

/-- C9, as the code has it: for an accepted source whose extension is `zip`, the
slice of the full path up to the last `.zip` is the full path without its final `.zip`;
`unzip` is called with it as destination; when this directory followed by `/%d.jpg`
holds no white space, that string is the argument the transcoder receives after `-i`;
`clearFile` removes the directory, and the handler runs these removals when the
extraction, the transcoder or the prober fails; and when the extraction, the
transcoder and the prober succeed and the prober reports a stream, the handler answers
200 and removes the directory right after the prober has run. -/
theorem zip_directory (env : Env) (source options : GoString) (finfo : Extension)
    (hget : getExtension env.notExist source = .ret (finfo, none))
    (hzip : finfo.Extension = lit "zip") :
    ∃ d, d ++ lit ".zip" = incomingPath ++ source
      ∧ slice finfo.FullPath 0 (lastIndex finfo.FullPath (lit ".zip")) = .ret d
      ∧ (∃ rest, (transcoding env source options).1
            = (unzip env.openReader finfo.FullPath d).1 ++ rest)
      ∧ ((unzip env.openReader finfo.FullPath d).2 = .ret none →
          noSpace (d ++ lit "/%d.jpg") →
          ∃ rest, ffmpegArgs env options finfo (d ++ lit "/%d.jpg")
                = lit "-i" :: (d ++ lit "/%d.jpg") :: rest
            ∧ Effect.exec env.ffmpeg (lit "-i" :: (d ++ lit "/%d.jpg") :: rest)
                ∈ (transcoding env source options).1)
      ∧ clearFile finfo = ([.removeAll finfo.FullPath, .removeAll d], .ret ())
      ∧ (∀ e, (unzip env.openReader finfo.FullPath d).2 = .ret (some e) →
          transcoding env source options
            = ((unzip env.openReader finfo.FullPath d).1
                ++ [.removeAll finfo.FullPath, .removeAll d]
                ++ [.logError ⟨lit "002", lit "unzip", e⟩],
              .error (some ⟨500, ⟨lit "002", lit "unzip", e⟩⟩)))
      ∧ (∀ e, (unzip env.openReader finfo.FullPath d).2 = .ret none →
          (env.run env.ffmpeg (ffmpegArgs env options finfo (d ++ lit "/%d.jpg"))).err = some e →
          (transcoding env source options).1
            = (unzip env.openReader finfo.FullPath d).1
                ++ (if env.outMissing (outPath env) then [.mkdirAll (outPath env)] else [])
                ++ [.exec env.ffmpeg (ffmpegArgs env options finfo (d ++ lit "/%d.jpg"))]
                ++ [.removeAll finfo.FullPath, .removeAll d]
                ++ [.logError ⟨lit "003", lit "ffmpeg",
                    replaceAll (env.run env.ffmpeg
                      (ffmpegArgs env options finfo (d ++ lit "/%d.jpg"))).stderr incomingPath []⟩])
      ∧ (∀ e, (unzip env.openReader finfo.FullPath d).2 = .ret none →
          (env.run env.ffmpeg (ffmpegArgs env options finfo (d ++ lit "/%d.jpg"))).err = none →
          (env.run env.ffprobe (ffprobeArgs env finfo)).err = some e →
          (transcoding env source options).1
            = (unzip env.openReader finfo.FullPath d).1
                ++ (if env.outMissing (outPath env) then [.mkdirAll (outPath env)] else [])
                ++ [.exec env.ffmpeg (ffmpegArgs env options finfo (d ++ lit "/%d.jpg"))]
                ++ [.exec env.ffprobe (ffprobeArgs env finfo)]
                ++ [.removeAll finfo.FullPath, .removeAll d]
                ++ [.logError ⟨lit "004", lit "ffprobe",
                    replaceAll ((env.run env.ffmpeg
                        (ffmpegArgs env options finfo (d ++ lit "/%d.jpg"))).stderr
                      ++ (env.run env.ffprobe (ffprobeArgs env finfo)).stderr) incomingPath []⟩])
      ∧ (∀ x xs, (unzip env.openReader finfo.FullPath d).2 = .ret none →
          (env.run env.ffmpeg (ffmpegArgs env options finfo (d ++ lit "/%d.jpg"))).err = none →
          (env.run env.ffprobe (ffprobeArgs env finfo)).err = none →
          (env.unmarshal (env.run env.ffprobe (ffprobeArgs env finfo)).stdout).lookup
              (lit "streams") = some (.array (x :: xs)) →
          (transcoding env source options).2
              = .json 200 { Message := lit "complete", Source := source,
                            URL := env.date ++ lit "/" ++ env.stamp ++ lit "_" ++ finfo.Name
                              ++ lit ".avi",
                            Detail := x }
            ∧ ∃ rest, (transcoding env source options).1
              = (unzip env.openReader finfo.FullPath d).1
                  ++ (if env.outMissing (outPath env) then [.mkdirAll (outPath env)] else [])
                  ++ [.exec env.ffmpeg (ffmpegArgs env options finfo (d ++ lit "/%d.jpg")),
                      .exec env.ffprobe (ffprobeArgs env finfo), .removeAll d]
                  ++ rest) := by
  obtain ⟨d, hd, hs⟩ := unzipPath_of_zip env.notExist source finfo hget hzip
  have hclear := clearFile_of_slice finfo d hs
  rcases hx : unzip env.openReader finfo.FullPath d with ⟨t, r⟩
  have hstage := inputStage_zip_of env source finfo d t r hzip hs hx
  refine ⟨d, hd, hs, ?_, ?_, hclear, ?_, ?_, ?_, ?_⟩ <;> try simp only [hx]
  · rcases r with (_ | err) | _
    · rw [transcoding_of_input env source options finfo t _ hget hstage]
      exact ⟨_, rfl⟩
    · unfold transcoding
      simp only [hget, hstage, List.append_assoc]
      exact ⟨_, rfl⟩
    · unfold transcoding
      simp only [hget, hstage]
      exact ⟨[], by simp⟩
  · intro hr hns
    subst hr
    have hne : d ++ lit "/%d.jpg" ≠ [] :=
      cmdInput_ne_nil env source finfo t _ hget hstage
    have hargs : ffmpegArgs env options finfo (d ++ lit "/%d.jpg")
        = lit "-i" :: (d ++ lit "/%d.jpg")
            :: fields (effectiveOptions options ++ lit " -v 16 " ++ cmdOutput env finfo) :=
      fields_cmdOption_input _ _ _ hne hns
    refine ⟨_, hargs, ?_⟩
    rw [← hargs, transcoding_of_input env source options finfo t _ hget hstage]
    exact List.mem_append_right _ (exec_mem_encodeStage env source options finfo _)
  · intro e hr
    subst hr
    unfold transcoding
    simp only [hget, hstage]
  · intro e hr hff
    subst hr
    rw [transcoding_of_input env source options finfo t _ hget hstage,
      encodeStage_ffmpeg_failed env source options finfo _ e _ _ hff hclear]
    simp
  · intro e hr hff hpr
    subst hr
    rw [transcoding_of_input env source options finfo t _ hget hstage,
      encodeStage_ffprobe_failed env source options finfo _ e _ _ hff hpr hclear]
    simp
  · intro x xs hr hff hpr hjs
    subst hr
    rw [transcoding_of_input env source options finfo t _ hget hstage,
      encodeStage_succeeded env source options finfo _ hff hpr]
    refine ⟨finishStage_answer env source finfo _ x xs (fun _ => ⟨d, hs⟩) hjs, ?_⟩
    obtain ⟨rest, hrest⟩ := finishStage_zip env source finfo _ d x xs hzip hs hjs
    refine ⟨rest, ?_⟩
    simp only [hrest, List.append_assoc, List.cons_append, List.nil_append, List.singleton_append]

theorem zip_directory_witness :
    getExtension (sampleEnv quietRun quietRun).notExist (lit "clips/run.zip")
        = .ret (⟨lit "incoming/clips/run.zip", lit "clips/", lit "zip", lit "run"⟩, none)
    ∧ lit "zip" = lit "zip"
    ∧ (unzip (sampleEnv quietRun quietRun).openReader (lit "incoming/clips/run.zip")
        (lit "incoming/clips/run")).2 = .ret none
    ∧ noSpace (lit "incoming/clips/run" ++ lit "/%d.jpg")
    ∧ lit "incoming/clips/run" ++ lit ".zip" = incomingPath ++ lit "clips/run.zip"
    ∧ slice (lit "incoming/clips/run.zip") 0
        (lastIndex (lit "incoming/clips/run.zip") (lit ".zip")) = .ret (lit "incoming/clips/run")
    ∧ clearFile ⟨lit "incoming/clips/run.zip", lit "clips/", lit "zip", lit "run"⟩
        = ([.removeAll (lit "incoming/clips/run.zip"), .removeAll (lit "incoming/clips/run")],
            .ret ())
    ∧ (∃ rest, Effect.exec (lit "/usr/bin/ffmpeg")
          (lit "-i" :: (lit "incoming/clips/run" ++ lit "/%d.jpg") :: rest)
        ∈ (transcoding (sampleEnv quietRun quietRun) (lit "clips/run.zip") []).1)
    ∧ (transcoding (sampleEnv quietRun quietRun) (lit "clips/run.zip") []).2
        = .json 200 { Message := lit "complete", Source := lit "clips/run.zip",
                      URL := lit "20240131/20240131235959_run.avi",
                      Detail := .string (lit "mjpeg") }
    ∧ Effect.removeAll (lit "incoming/clips/run")
        ∈ (transcoding (sampleEnv quietRun quietRun) (lit "clips/run.zip") []).1 := by
  obtain ⟨d, h1, h2, _, h4, h5, _, _, _, h9⟩ :=
    zip_directory (sampleEnv quietRun quietRun) (lit "clips/run.zip") []
      ⟨lit "incoming/clips/run.zip", lit "clips/", lit "zip", lit "run"⟩ (by decide) rfl
  have hd : d = lit "incoming/clips/run" :=
    List.append_cancel_right (h1.trans (by decide :
      incomingPath ++ lit "clips/run.zip" = lit "incoming/clips/run" ++ lit ".zip"))
  subst hd
  obtain ⟨rest4, _, hexec⟩ := h4 rfl (by decide)
  obtain ⟨hans, rest9, htrace⟩ := h9 (.string (lit "mjpeg")) [.null] rfl rfl rfl rfl
  refine ⟨by decide, rfl, rfl, by decide, by decide, h2, h5, ⟨rest4, hexec⟩, hans, ?_⟩
  rw [htrace]
  simp

set_option maxRecDepth 100000 in
/-- C9 as stated fails: for the archive `my run.zip` the extraction directory is
`incoming/my run`, and the transcoder is started with `incoming/my` after `-i`, not
with `incoming/my run/%d.jpg`: the command line is split at white space. -/
theorem zip_input_split_at_space :
    getExtension (sampleEnv quietRun quietRun).notExist (lit "my run.zip")
        = .ret (⟨lit "incoming/my run.zip", [], lit "zip", lit "my run"⟩, none)
    ∧ slice (lit "incoming/my run.zip") 0
        (lastIndex (lit "incoming/my run.zip") (lit ".zip")) = .ret (lit "incoming/my run")
    ∧ Effect.exec (lit "/usr/bin/ffmpeg")
        [lit "-i", lit "incoming/my", lit "run/%d.jpg", lit "-s", lit "160x64", lit "-c:v",
          lit "mjpeg", lit "-q:v", lit "5", lit "-r", lit "20", lit "-an", lit "-v", lit "16",
          lit "outgoing/20240131/20240131235959_my", lit "run.avi"]
        ∈ (transcoding (sampleEnv quietRun quietRun) (lit "my run.zip") []).1
    ∧ (∀ args, Effect.exec (lit "/usr/bin/ffmpeg") args
          ∈ (transcoding (sampleEnv quietRun quietRun) (lit "my run.zip") []).1 →
        args[1]? = some (lit "incoming/my"))
    ∧ lit "incoming/my" ≠ lit "incoming/my run" ++ lit "/%d.jpg" := by
  have htrace : (transcoding (sampleEnv quietRun quietRun) (lit "my run.zip") []).1
      = [.mkdirAll (lit "incoming/my run"),
          .mkdirAll (lit "incoming/my run"), .openFile (lit "incoming/my run/1.jpg"),
          .mkdirAll (lit "incoming/my run"), .openFile (lit "incoming/my run/2.jpg"),
          .mkdirAll (lit "outgoing/20240131"),
          .exec (lit "/usr/bin/ffmpeg")
            [lit "-i", lit "incoming/my", lit "run/%d.jpg", lit "-s", lit "160x64", lit "-c:v",
              lit "mjpeg", lit "-q:v", lit "5", lit "-r", lit "20", lit "-an", lit "-v",
              lit "16", lit "outgoing/20240131/20240131235959_my", lit "run.avi"],
          .exec (lit "/usr/bin/ffprobe")
            [lit "-show_streams", lit "-of", lit "json",
              lit "outgoing/20240131/20240131235959_my run.avi"],
          .removeAll (lit "incoming/my run"),
          .exec (lit "mv") [lit "incoming/my run.zip",
            lit "outgoing/20240131/20240131235959_my run.avi.origin.zip"]] := by
    rfl
  refine ⟨by decide, by decide, ?_, ?_, by decide⟩
  · rw [htrace]
    decide
  · intro args hargs
    rw [htrace] at hargs
    simp only [List.mem_cons, List.mem_singleton, List.not_mem_nil, or_false, Effect.exec.injEq,
      false_or, reduceCtorEq] at hargs
    rcases hargs with ⟨_, h⟩ | ⟨h0, _⟩ | ⟨h0, _⟩
    · rw [h]; rfl
    · exact absurd h0 (by decide)
    · exact absurd h0 (by decide)


/-! ## Paths -/

theorem splitSlash_ne_nil (s : GoString) : splitSlash s ≠ [] := by
  cases s with
  | nil => simp [splitSlash]
  | cons b rest =>
    unfold splitSlash
    split
    · simp
    · split <;> simp

theorem splitSlash_append_slash (a b : GoString) :
    splitSlash (a ++ '/'.toNat :: b) = splitSlash a ++ splitSlash b := by
  induction a with
  | nil => simp [splitSlash]
  | cons x a ih =>
    rw [List.cons_append]
    by_cases hx : x = '/'.toNat
    · simp only [splitSlash, hx, if_true, ih, List.cons_append]
    · simp only [splitSlash, hx, if_false, ih]
      cases hsa : splitSlash a with
      | nil => exact absurd hsa (splitSlash_ne_nil a)
      | cons seg segs => simp

theorem splitSlash_no_slash (seg : GoString) (h : '/'.toNat ∉ seg) : splitSlash seg = [seg] := by
  induction seg with
  | nil => rfl
  | cons x t ih =>
    have hx : x ≠ '/'.toNat := fun e => h (e ▸ List.mem_cons_self _ _)
    have ht : '/'.toNat ∉ t := fun e => h (List.mem_cons_of_mem _ e)
    simp only [splitSlash, hx, if_false, ih ht]

theorem mem_splitSlash_no_slash (s : GoString) : ∀ seg ∈ splitSlash s, '/'.toNat ∉ seg := by
  induction s with
  | nil => simp [splitSlash]
  | cons x t ih =>
    intro seg hseg
    by_cases hx : x = '/'.toNat
    · simp only [splitSlash, hx, if_true, List.mem_cons] at hseg
      rcases hseg with h | h
      · simp [h]
      · exact ih seg h
    · simp only [splitSlash, hx, if_false] at hseg
      cases hsa : splitSlash t with
      | nil => exact absurd hsa (splitSlash_ne_nil t)
      | cons s1 segs =>
        rw [hsa] at hseg ih
        simp only [List.mem_cons] at hseg
        rcases hseg with h | h
        · have h1 := ih s1 (by simp)
          rw [h]
          intro hm
          rcases List.mem_cons.mp hm with e | e
          · exact hx e.symm
          · exact h1 e
        · exact ih seg (by simp [h])

theorem cleanPush_proper (rooted : Bool) (st : List GoString) (seg : GoString)
    (h : seg ≠ [] ∧ seg ≠ lit "." ∧ seg ≠ lit "..") : cleanPush rooted st seg = st ++ [seg] := by
  unfold cleanPush
  simp [h.1, h.2.1, h.2.2]

theorem cleanPush_skip (rooted : Bool) (st : List GoString) (seg : GoString)
    (h : seg = [] ∨ seg = lit ".") : cleanPush rooted st seg = st := by
  unfold cleanPush
  rw [if_pos h]

/-- Components without `..` are appended to the stack, the empty ones and `.` left out. -/
theorem foldl_cleanPush_no_dotdot (rooted : Bool) :
    ∀ (segs st : List GoString), lit ".." ∉ segs →
      segs.foldl (cleanPush rooted) st
        = st ++ segs.filter (fun seg => decide (seg ≠ [] ∧ seg ≠ lit ".")) := by
  intro segs
  induction segs with
  | nil => intro st _; simp
  | cons seg segs ih =>
    intro st h
    have h1 : seg ≠ lit ".." := fun e => h (by simp [e])
    have h2 : lit ".." ∉ segs := fun e => h (by simp [e])
    rw [List.foldl_cons]
    by_cases hs : seg = [] ∨ seg = lit "."
    · rw [cleanPush_skip rooted st seg hs, ih st h2]
      have : decide (seg ≠ [] ∧ seg ≠ lit ".") = false := by
        rcases hs with e | e <;> simp [e]
      rw [List.filter_cons_of_neg (by simp [this])]
    · have hs2 : seg ≠ [] ∧ seg ≠ lit "." := by
        constructor
        · exact fun e => hs (Or.inl e)
        · exact fun e => hs (Or.inr e)
      rw [cleanPush_proper rooted st seg ⟨hs2.1, hs2.2, h1⟩, ih _ h2,
        List.filter_cons_of_pos (by simp [hs2])]
      simp

theorem isRooted_append (a b : GoString) (h : a ≠ []) : isRooted (a ++ b) = isRooted a := by
  cases a with
  | nil => exact absurd rfl h
  | cons x t => rfl

/-- Joining `dest` with a name that has no `..` component appends the name's proper
components to the cleaned `dest`. -/
theorem join_no_dotdot (dest name : GoString) (hd : dest ≠ [])
    (hn : lit ".." ∉ splitSlash name) :
    join dest name = render (isRooted dest)
      (cleanStack dest ++ (splitSlash name).filter (fun seg => decide (seg ≠ [] ∧ seg ≠ lit "."))) := by
  unfold join
  rw [if_pos hd]
  unfold clean cleanStack
  rw [isRooted_append dest _ hd, splitSlash_append_slash, List.foldl_append,
    foldl_cleanPush_no_dotdot _ _ _ hn]

theorem filter_proper (name : GoString) :
    ∀ seg ∈ (splitSlash name).filter (fun seg => decide (seg ≠ [] ∧ seg ≠ lit ".")),
      lit ".." ∉ splitSlash name → properSeg seg := by
  intro seg hseg hn
  rw [List.mem_filter] at hseg
  obtain ⟨hm, hp⟩ := hseg
  have hp2 : seg ≠ [] ∧ seg ≠ lit "." := by simpa using hp
  exact ⟨hp2.1, hp2.2, fun e => hn (e ▸ hm), mem_splitSlash_no_slash name seg hm⟩


theorem dotdot_no_slash : '/'.toNat ∉ lit ".." := by decide

theorem cleanPush_dotdot_replicate (k : Nat) :
    cleanPush false (List.replicate k (lit "..")) (lit "..") = List.replicate (k + 1) (lit "..") := by
  cases k with
  | zero => rfl
  | succ k =>
    have hl : (List.replicate (k + 1) (lit "..")).getLast? = some (lit "..") := by
      rw [List.replicate_succ', List.getLast?_append]
      simp
    unfold cleanPush
    rw [if_neg (by decide), if_pos rfl]
    simp only [hl, if_true]
    exact (List.replicate_succ' (k + 1) (lit "..")).symm

theorem cleanPush_shape (rooted : Bool) (st : List GoString) (seg : GoString)
    (hst : cleanShape rooted st) (hseg : '/'.toNat ∉ seg) :
    cleanShape rooted (cleanPush rooted st seg) := by
  by_cases h1 : seg = [] ∨ seg = lit "."
  · rw [cleanPush_skip rooted st seg h1]; exact hst
  · have hne : seg ≠ [] := fun e => h1 (Or.inl e)
    have hnd : seg ≠ lit "." := fun e => h1 (Or.inr e)
    obtain ⟨k, body, hs, hk, hb⟩ := hst
    by_cases h2 : seg = lit ".."
    · subst h2
      rcases List.eq_nil_or_concat body with hb0 | ⟨body1, top, hb1⟩
      · subst hb0
        rw [List.append_nil] at hs
        subst hs
        cases hr : rooted with
        | true =>
          have hk0 := hk hr
          subst hk0
          exact ⟨0, [], by decide, fun _ => rfl, by simp⟩
        | false =>
          rw [cleanPush_dotdot_replicate]
          exact ⟨k + 1, [], by simp, fun h => absurd h (by decide), by simp⟩
      · rw [List.concat_eq_append] at hb1
        subst hb1
        have htop : properSeg top := hb top (by simp)
        have hl : st.getLast? = some top := by
          rw [hs, ← List.append_assoc, List.getLast?_append]
          simp
        have hd : st.dropLast = List.replicate k (lit "..") ++ body1 := by
          rw [hs, ← List.append_assoc, List.dropLast_concat]
        have hcp : cleanPush rooted st (lit "..") = List.replicate k (lit "..") ++ body1 := by
          unfold cleanPush
          rw [if_neg h1, if_pos rfl]
          simp only [hl]
          rw [if_neg htop.2.2.1, hd]
        rw [hcp]
        exact ⟨k, body1, rfl, hk, fun s hs1 => hb s (by simp [hs1])⟩
    · rw [cleanPush_proper rooted st seg ⟨hne, hnd, h2⟩]
      refine ⟨k, body ++ [seg], by rw [hs, List.append_assoc], hk, ?_⟩
      intro s hs1
      rcases List.mem_append.mp hs1 with h | h
      · exact hb s h
      · have e : s = seg := by simpa using h
        subst e
        exact ⟨hne, hnd, h2, hseg⟩

theorem foldl_cleanPush_shape (rooted : Bool) :
    ∀ (segs st : List GoString), (∀ seg ∈ segs, '/'.toNat ∉ seg) → cleanShape rooted st →
      cleanShape rooted (segs.foldl (cleanPush rooted) st) := by
  intro segs
  induction segs with
  | nil => intro st _ h; exact h
  | cons seg segs ih =>
    intro st hs h
    rw [List.foldl_cons]
    exact ih _ (fun s hs1 => hs s (List.mem_cons_of_mem _ hs1))
      (cleanPush_shape rooted st seg h (hs seg (List.mem_cons_self _ _)))

theorem cleanStack_shape (path : GoString) : cleanShape (isRooted path) (cleanStack path) :=
  foldl_cleanPush_shape _ _ _ (mem_splitSlash_no_slash path)
    ⟨0, [], rfl, fun _ => rfl, by simp⟩

theorem cleanShape_append (rooted : Bool) (st extra : List GoString)
    (h : cleanShape rooted st) (he : ∀ seg ∈ extra, properSeg seg) :
    cleanShape rooted (st ++ extra) := by
  obtain ⟨k, body, hs, hk, hb⟩ := h
  refine ⟨k, body ++ extra, by rw [hs, List.append_assoc], hk, ?_⟩
  intro s hs1
  rcases List.mem_append.mp hs1 with h | h
  · exact hb s h
  · exact he s h

theorem cleanShape_mem (rooted : Bool) (st : List GoString) (h : cleanShape rooted st) :
    ∀ seg ∈ st, seg ≠ [] ∧ seg ≠ lit "." ∧ '/'.toNat ∉ seg := by
  obtain ⟨k, body, hs, _, hb⟩ := h
  intro seg hseg
  rw [hs] at hseg
  rcases List.mem_append.mp hseg with h1 | h1
  · have e : seg = lit ".." := List.eq_of_mem_replicate h1
    subst e
    decide
  · have := hb seg h1
    exact ⟨this.1, this.2.1, this.2.2.2⟩

theorem foldl_cleanPush_proper (rooted : Bool) :
    ∀ (body st : List GoString), (∀ seg ∈ body, properSeg seg) →
      body.foldl (cleanPush rooted) st = st ++ body := by
  intro body
  induction body with
  | nil => intro st _; simp
  | cons seg body ih =>
    intro st h
    have hp := h seg (List.mem_cons_self _ _)
    rw [List.foldl_cons, cleanPush_proper rooted st seg ⟨hp.1, hp.2.1, hp.2.2.1⟩,
      ih _ (fun s hs => h s (List.mem_cons_of_mem _ hs))]
    simp

theorem foldl_cleanPush_dotdots (k : Nat) :
    ∀ j, (List.replicate k (lit "..")).foldl (cleanPush false) (List.replicate j (lit ".."))
      = List.replicate (j + k) (lit "..") := by
  induction k with
  | zero => intro j; simp
  | succ k ih =>
    intro j
    rw [List.replicate_succ, List.foldl_cons, cleanPush_dotdot_replicate, ih (j + 1)]
    congr 1
    omega

/-- Cleaning a stack that is already clean gives it back. -/
theorem foldl_cleanPush_id (rooted : Bool) (st : List GoString) (h : cleanShape rooted st) :
    st.foldl (cleanPush rooted) [] = st := by
  obtain ⟨k, body, hs, hk, hb⟩ := h
  subst hs
  rw [List.foldl_append]
  cases hr : rooted with
  | true =>
    have hk0 := hk hr
    subst hk0
    simp only [List.replicate_zero, List.foldl_nil]
    rw [foldl_cleanPush_proper true body [] hb]
  | false =>
    have := foldl_cleanPush_dotdots k 0
    simp only [List.replicate_zero, Nat.zero_add] at this
    rw [this, foldl_cleanPush_proper false body _ hb]


theorem splitSlash_joinSlash :
    ∀ st : List GoString, st ≠ [] → (∀ seg ∈ st, '/'.toNat ∉ seg) → splitSlash (joinSlash st) = st := by
  intro st
  induction st with
  | nil => intro h; exact absurd rfl h
  | cons seg rest ih =>
    intro _ hs
    have hseg := hs seg (List.mem_cons_self _ _)
    cases rest with
    | nil => exact splitSlash_no_slash seg hseg
    | cons r1 rs =>
      have e : joinSlash (seg :: r1 :: rs) = seg ++ '/'.toNat :: joinSlash (r1 :: rs) := rfl
      rw [e, splitSlash_append_slash, splitSlash_no_slash seg hseg,
        ih (by simp) (fun s h => hs s (List.mem_cons_of_mem _ h))]
      rfl

theorem joinSlash_cons_ne_nil (seg : GoString) (rest : List GoString) (h : seg ≠ []) :
    joinSlash (seg :: rest) ≠ [] := by
  cases rest with
  | nil => exact h
  | cons r1 rs =>
    have e : joinSlash (seg :: r1 :: rs) = seg ++ '/'.toNat :: joinSlash (r1 :: rs) := rfl
    rw [e]
    simp

theorem isRooted_joinSlash (seg : GoString) (rest : List GoString) (h : seg ≠ [])
    (hs : '/'.toNat ∉ seg) : isRooted (joinSlash (seg :: rest)) = false := by
  have e : isRooted (joinSlash (seg :: rest)) = isRooted seg := by
    cases rest with
    | nil => rfl
    | cons r1 rs =>
      have e1 : joinSlash (seg :: r1 :: rs) = seg ++ '/'.toNat :: joinSlash (r1 :: rs) := rfl
      rw [e1, isRooted_append _ _ h]
  rw [e]
  cases seg with
  | nil => exact absurd rfl h
  | cons x t =>
    have hx : x ≠ '/'.toNat := fun e => hs (e ▸ List.mem_cons_self _ _)
    unfold isRooted
    simp only [List.head?_cons, Option.some.injEq, hx, decide_False]

theorem joinSlash_concat (last : GoString) :
    ∀ st : List GoString, st ≠ [] → joinSlash (st ++ [last]) = joinSlash st ++ '/'.toNat :: last := by
  intro st
  induction st with
  | nil => intro h; exact absurd rfl h
  | cons seg rest ih =>
    intro _
    cases rest with
    | nil => rfl
    | cons r1 rs =>
      have e1 : joinSlash (seg :: (r1 :: rs ++ [last]))
          = seg ++ '/'.toNat :: joinSlash (r1 :: rs ++ [last]) := rfl
      have e2 : joinSlash (seg :: r1 :: rs) = seg ++ '/'.toNat :: joinSlash (r1 :: rs) := rfl
      rw [List.cons_append, e1, ih (by simp), e2]
      simp

/-- A path written out from a clean stack is rooted as asked and cleans to that stack. -/
theorem clean_render (rooted : Bool) (st : List GoString) (h : cleanShape rooted st) :
    isRooted (render rooted st) = rooted ∧ cleanStack (render rooted st) = st := by
  have hmem := cleanShape_mem rooted st h
  have hid := foldl_cleanPush_id rooted st h
  cases hr : rooted with
  | true =>
    subst hr
    have e : render true st = '/'.toNat :: joinSlash st := rfl
    rw [e]
    refine ⟨rfl, ?_⟩
    unfold cleanStack
    have e2 : splitSlash ('/'.toNat :: joinSlash st) = [] :: splitSlash (joinSlash st) := by
      simp [splitSlash]
    have e3 : isRooted ('/'.toNat :: joinSlash st) = true := rfl
    rw [e2, e3, List.foldl_cons, cleanPush_skip true [] [] (Or.inl rfl)]
    cases st with
    | nil => rfl
    | cons seg rest =>
      rw [splitSlash_joinSlash _ (by simp) (fun s hs => (hmem s hs).2.2), hid]
  | false =>
    subst hr
    cases st with
    | nil => exact ⟨by decide, by decide⟩
    | cons seg rest =>
      have e : render false (seg :: rest) = joinSlash (seg :: rest) := by
        unfold render
        simp
      have hseg := hmem seg (List.mem_cons_self _ _)
      have hroot := isRooted_joinSlash seg rest hseg.1 hseg.2.2
      rw [e]
      refine ⟨hroot, ?_⟩
      unfold cleanStack
      rw [hroot, splitSlash_joinSlash _ (by simp) (fun s hs => (hmem s hs).2.2), hid]

theorem clean_idem (rooted : Bool) (st : List GoString) (h : cleanShape rooted st) :
    clean (render rooted st) = render rooted st := by
  unfold clean
  rw [(clean_render rooted st h).1, (clean_render rooted st h).2]

theorem clean_trailing_slash (p : GoString) (hp : p ≠ []) :
    clean (p ++ ['/'.toNat]) = clean p := by
  unfold clean cleanStack
  rw [isRooted_append p _ hp, splitSlash_append_slash, List.foldl_append]
  have e : splitSlash [] = [[]] := rfl
  rw [e, List.foldl_cons, List.foldl_nil, cleanPush_skip _ _ [] (Or.inl rfl)]

theorem dir_of_last_slash (p last : GoString) (h : '/'.toNat ∉ last) :
    dir (p ++ '/'.toNat :: last) = clean (p ++ ['/'.toNat]) := by
  unfold dir
  rw [lit_slash, lastIndex_byte_last _ p last h]
  have e : ((p.length : Int) + 1).toNat = p.length + 1 := by omega
  have e2 : (p ++ '/'.toNat :: last).take (p.length + 1) = p ++ ['/'.toNat] := by
    rw [List.take_append]
    rfl
  rw [e, e2]

theorem dir_no_slash (last : GoString) (h : '/'.toNat ∉ last) : dir last = clean [] := by
  unfold dir
  rw [lit_slash, lastIndex_byte_absent _ last h]
  rfl

/-- The directory of a clean path with a last component is the path without it. -/
theorem dir_render (rooted : Bool) (st : List GoString) (last : GoString)
    (h : cleanShape rooted st) (hl : '/'.toNat ∉ last) :
    dir (render rooted (st ++ [last])) = render rooted st := by
  have hmem := cleanShape_mem rooted st h
  cases hr : rooted with
  | true =>
    subst hr
    cases hst : st with
    | nil =>
      have e : render true ([] ++ [last]) = [] ++ '/'.toNat :: last := rfl
      rw [e, dir_of_last_slash [] last hl]
      decide
    | cons seg rest =>
      rw [← hst]
      have hne : st ≠ [] := by rw [hst]; simp
      have e : render true (st ++ [last]) = render true st ++ '/'.toNat :: last := by
        unfold render
        simp only [if_true]
        rw [joinSlash_concat last st hne]
        rfl
      rw [e, dir_of_last_slash _ last hl, clean_trailing_slash _ (by unfold render; simp),
        clean_idem true st h]
  | false =>
    subst hr
    cases hst : st with
    | nil =>
      have e : render false ([] ++ [last]) = last := by
        unfold render
        simp [joinSlash]
      rw [e, dir_no_slash last hl]
      decide
    | cons seg rest =>
      rw [← hst]
      have hne : st ≠ [] := by rw [hst]; simp
      have hseg : seg ≠ [] := (hmem seg (by rw [hst]; exact List.mem_cons_self _ _)).1
      have e0 : render false st = joinSlash st := by
        unfold render
        simp [hne]
      have e : render false (st ++ [last]) = render false st ++ '/'.toNat :: last := by
        rw [e0]
        unfold render
        simp only [Bool.false_eq_true, if_false]
        rw [if_neg (by simp), joinSlash_concat last st hne]
      have hjn : render false st ≠ [] := by
        rw [e0, hst]; exact joinSlash_cons_ne_nil seg rest hseg
      rw [e, dir_of_last_slash _ last hl, clean_trailing_slash _ hjn, clean_idem false st h]


/-! ## unzip -/

theorem inside_self (dest : GoString) : inside dest dest :=
  ⟨[], by simp, by unfold clean; simp⟩

theorem inside_join (dest name : GoString) (hd : dest ≠ []) (hn : lit ".." ∉ splitSlash name) :
    inside dest (join dest name) := by
  have hp := fun seg h => filter_proper name seg h hn
  refine ⟨_, hp, ?_⟩
  rw [join_no_dotdot dest name hd hn]
  exact clean_idem _ _ (cleanShape_append _ _ _ (cleanStack_shape dest) hp)

theorem inside_dir_join (dest name : GoString) (hd : dest ≠ []) (hn : lit ".." ∉ splitSlash name)
    (hseg : ∃ seg ∈ splitSlash name, seg ≠ [] ∧ seg ≠ lit ".") :
    inside dest (dir (join dest name)) := by
  have hp := fun seg h => filter_proper name seg h hn
  obtain ⟨seg, hmem, hs⟩ := hseg
  have hne : (splitSlash name).filter (fun seg => decide (seg ≠ [] ∧ seg ≠ lit ".")) ≠ [] := by
    intro e
    have : seg ∈ (splitSlash name).filter (fun seg => decide (seg ≠ [] ∧ seg ≠ lit ".")) := by
      rw [List.mem_filter]
      exact ⟨hmem, by simpa using hs⟩
    rw [e] at this
    cases this
  rcases List.eq_nil_or_concat
      ((splitSlash name).filter (fun seg => decide (seg ≠ [] ∧ seg ≠ lit "."))) with
    h0 | ⟨extra, last, he⟩
  · exact absurd h0 hne
  · rw [List.concat_eq_append] at he
    rw [he] at hp
    have hpe : ∀ s ∈ extra, properSeg s := fun s h => hp s (by simp [h])
    have hlast : properSeg last := hp last (by simp)
    have hshape := cleanShape_append _ _ _ (cleanStack_shape dest) hpe
    refine ⟨extra, hpe, ?_⟩
    rw [join_no_dotdot dest name hd hn, he, ← List.append_assoc,
      dir_render _ _ last hshape hlast.2.2.2]
    exact clean_idem _ _ hshape

theorem extractAndWriteFile_inside (dest : GoString) (f : ZipEntry) (hd : dest ≠ [])
    (hn : lit ".." ∉ splitSlash f.Name)
    (hseg : f.isDir = false → ∃ seg ∈ splitSlash f.Name, seg ≠ [] ∧ seg ≠ lit ".") :
    ∀ eff ∈ (extractAndWriteFile dest f).1,
      ∃ p, (eff = .mkdirAll p ∨ eff = .openFile p) ∧ inside dest p := by
  intro eff heff
  unfold extractAndWriteFile at heff
  cases ho : f.openErr with
  | some e => rw [ho] at heff; simp at heff
  | none =>
    rw [ho] at heff
    simp only at heff
    cases hdir : f.isDir with
    | true =>
      rw [hdir] at heff
      simp only [if_true, List.mem_singleton] at heff
      exact ⟨_, Or.inl heff, inside_join dest f.Name hd hn⟩
    | false =>
      rw [hdir] at heff
      have hmem : eff ∈ [Effect.mkdirAll (dir (join dest f.Name)),
          Effect.openFile (join dest f.Name)] := by
        cases hc : f.createErr with
        | some e => rw [hc] at heff; simpa using heff
        | none => rw [hc] at heff; simpa using heff
      simp only [List.mem_cons, List.mem_singleton, List.not_mem_nil, or_false] at hmem
      rcases hmem with h | h
      · exact ⟨_, Or.inl h, inside_dir_join dest f.Name hd hn (hseg hdir)⟩
      · exact ⟨_, Or.inr h, inside_join dest f.Name hd hn⟩

theorem extractAll_inside (dest : GoString) (hd : dest ≠ []) :
    ∀ fs : List ZipEntry,
      (∀ f ∈ fs, lit ".." ∉ splitSlash f.Name
        ∧ (f.isDir = false → ∃ seg ∈ splitSlash f.Name, seg ≠ [] ∧ seg ≠ lit ".")) →
      ∀ eff ∈ (extractAll dest fs).1,
        ∃ p, (eff = .mkdirAll p ∨ eff = .openFile p) ∧ inside dest p := by
  intro fs
  induction fs with
  | nil => intro _ eff heff; simp [extractAll] at heff
  | cons f fs ih =>
    intro hfs eff heff
    have hf := hfs f (List.mem_cons_self _ _)
    have hentry := extractAndWriteFile_inside dest f hd hf.1 hf.2
    have hrest := ih (fun g hg => hfs g (List.mem_cons_of_mem _ hg))
    unfold extractAll at heff
    rcases hx : extractAndWriteFile dest f with ⟨tr, r⟩
    rw [hx] at heff hentry
    rcases r with (_ | e) | _
    · simp only [List.mem_append] at heff
      rcases heff with h | h
      · exact hentry eff h
      · exact hrest eff h
    · exact hentry eff heff
    · exact hentry eff heff

/-- C7, as the code has it: when no entry name of the archive has a `..` component
(a leading `/` is allowed) and every file entry's name has a component other than `.`,
every directory `unzip` creates and every file it opens for writing has a path inside
the non-empty `dest`: cleaned, the path is the cleaned `dest` followed by components
that name entries. -/
theorem unzip_within_dest (openReader : GoString → Except GoString Archive)
    (src dest : GoString) (archive : Archive)
    (hopen : openReader src = .ok archive) (hd : dest ≠ [])
    (hnames : ∀ f ∈ archive.File, lit ".." ∉ splitSlash f.Name
      ∧ (f.isDir = false → ∃ seg ∈ splitSlash f.Name, seg ≠ [] ∧ seg ≠ lit ".")) :
    ∀ eff ∈ (unzip openReader src dest).1,
      ∃ p, (eff = .mkdirAll p ∨ eff = .openFile p) ∧ inside dest p := by
  intro eff heff
  unfold unzip at heff
  rw [hopen] at heff
  simp only [List.mem_cons] at heff
  rcases heff with h | h
  · exact ⟨dest, Or.inl h, inside_self dest⟩
  · exact extractAll_inside dest hd archive.File hnames eff h

theorem unzip_within_dest_witness :
    lit "incoming/run" ≠ []
    ∧ (∀ f ∈ rootedArchive.File, lit ".." ∉ splitSlash f.Name
        ∧ (f.isDir = false → ∃ seg ∈ splitSlash f.Name, seg ≠ [] ∧ seg ≠ lit "."))
    ∧ (unzip (fun _ => .ok rootedArchive) (lit "incoming/run.zip") (lit "incoming/run")).1
        = [.mkdirAll (lit "incoming/run"), .mkdirAll (lit "incoming/run/etc"),
            .openFile (lit "incoming/run/etc/passwd"), .mkdirAll (lit "incoming/run/frames")]
    ∧ ∀ eff ∈ (unzip (fun _ => .ok rootedArchive) (lit "incoming/run.zip")
          (lit "incoming/run")).1,
        ∃ p, (eff = .mkdirAll p ∨ eff = .openFile p) ∧ inside (lit "incoming/run") p :=
  have hnames : ∀ f ∈ rootedArchive.File, lit ".." ∉ splitSlash f.Name
      ∧ (f.isDir = false → ∃ seg ∈ splitSlash f.Name, seg ≠ [] ∧ seg ≠ lit ".") := by
    intro f hf
    simp only [rootedArchive, List.mem_cons, List.mem_singleton, List.not_mem_nil,
      or_false] at hf
    rcases hf with h | h
    · subst h
      exact ⟨by decide, fun _ => ⟨lit "etc", by decide, by decide, by decide⟩⟩
    · subst h
      exact ⟨by decide, fun h => absurd h (by decide)⟩
  ⟨by decide, hnames, by decide,
    unzip_within_dest (fun _ => .ok rootedArchive) (lit "incoming/run.zip") (lit "incoming/run")
      rootedArchive rfl (by decide) hnames⟩

/-- C7 as stated fails: for an archive with a file named `../../x.jpg`, extracted into
`incoming/run`, `unzip` creates the directory `.` and writes the file `x.jpg`, which is
not inside `incoming/run`. -/
theorem unzip_escapes_dest :
    (unzip (fun _ => .ok slipArchive) (lit "incoming/run.zip") (lit "incoming/run")).1
        = [.mkdirAll (lit "incoming/run"), .mkdirAll (lit "."), .openFile (lit "x.jpg")]
    ∧ ¬ inside (lit "incoming/run") (lit "x.jpg") := by
  refine ⟨by decide, ?_⟩
  rintro ⟨extra, _, h⟩
  have e1 : clean (lit "x.jpg") = lit "x.jpg" := by decide
  have e2 : isRooted (lit "incoming/run") = false := by decide
  have e3 : cleanStack (lit "incoming/run") = [lit "incoming", lit "run"] := by decide
  have e4 : render false ([lit "incoming", lit "run"] ++ extra)
      = lit "incoming" ++ '/'.toNat :: joinSlash (lit "run" :: extra) := rfl
  rw [e1, e2, e3, e4] at h
  have e5 : (lit "incoming" ++ '/'.toNat :: joinSlash (lit "run" :: extra)).head?
      = some 'i'.toNat := rfl
  have e6 : (lit "x.jpg").head? = some 'x'.toNat := rfl
  have := congrArg List.head? h
  rw [e5, e6] at this
  exact absurd this (by decide)

end Transcodingman
